import Mathlib

/-!
# Verification of `supervision/metrics/detection.py`

Shallow embedding of the detection-metrics module of the `supervision`
repository (`ConfusionMatrix` and `MeanAveragePrecision`), together with
proofs and refutations of a list of specification claims.

Modelling conventions:

* Machine floats are modelled by exact rationals (`ℚ`).  All quantities the
  claims are about (IoU values, confidences, precisions, recalls, trapezoid
  integrals) are ratios of small integers, so `ℚ` reproduces the real
  arithmetic of the algorithms; floating-point rounding is not what any of
  the claims is about.
* `np.ndarray` values are modelled by lists (`List`), a matrix by a list of
  rows.  A confusion matrix is modelled as a total counting function
  `ℕ → ℕ → ℕ` built by the same increment sequence as the code.
* `np.argsort` (ascending, followed by `[::-1]` in the code) is modelled as a
  stable ascending sort followed by `List.reverse`.  NumPy's default
  `argsort` is stable on the array sizes involved here (introsort falls back
  to insertion sort below 16 elements); every general theorem whose truth
  could depend on tie-breaking carries a distinct-keys hypothesis under
  which any correct sort gives the same result.
* `np.unique(a, return_index=True)[1]` used as an index array picks, for
  each distinct value in ascending order, the first position carrying that
  value; `uniqueByKey` below reproduces exactly that.
-/

namespace SupervisionSpec

/-- One candidate match, a row of the `matches` array of the code:
`(target_index, prediction_index, iou)`. -/
structure MatchTriple where
  tgt : ℕ
  prd : ℕ
  iou : ℚ
  deriving DecidableEq, Repr

/-- `matches[matches[:, 2].argsort()[::-1]]`: stable ascending sort by the
IoU column, then reversal. -/
def sortByIouDesc (ms : List MatchTriple) : List MatchTriple :=
  (ms.insertionSort (fun a b => a.iou ≤ b.iou)).reverse

/-- `matches[np.unique(matches[:, k], return_index=True)[1]]`: for each
distinct value of the key column in ascending order, the first row of `ms`
carrying that value. -/
def uniqueByKey (key : MatchTriple → ℕ) (ms : List MatchTriple) : List MatchTriple :=
  (((ms.map key).dedup).insertionSort (· ≤ ·)).filterMap
    (fun k => ms.find? (fun m => key m == k))

/-- `ConfusionMatrix._drop_extra_matches`: sort by IoU descending, dedup by
prediction index, re-sort by IoU descending, dedup by target index.  The
`if matches.shape[0] > 0` guard of the code is reproduced verbatim. -/
def drop_extra_matches (ms : List MatchTriple) : List MatchTriple :=
  if ms = [] then ms
  else uniqueByKey (·.tgt) (sortByIouDesc (uniqueByKey (·.prd) (sortByIouDesc ms)))

/-- The deduplication performed inside `MeanAveragePrecision._match_detection_batch`
(guarded by `if x[0].shape[0] > 1`): sort by IoU descending, dedup by
prediction index, dedup by target index — with *no* re-sort between the two
dedup passes. -/
def ap_dedup (ms : List MatchTriple) : List MatchTriple :=
  if 1 < ms.length then uniqueByKey (·.tgt) (uniqueByKey (·.prd) (sortByIouDesc ms)) else ms

/-! ## Basic properties of the match-list combinators -/

theorem sortByIouDesc_perm (ms : List MatchTriple) : List.Perm (sortByIouDesc ms) ms := by
  unfold sortByIouDesc
  exact (List.reverse_perm _).trans (List.perm_insertionSort _ ms)

theorem nodup_sorted_keys (ks : List ℕ) : (ks.dedup.insertionSort (· ≤ ·)).Nodup :=
  ((List.perm_insertionSort _ _).nodup_iff).mpr ks.nodup_dedup

theorem uniqueByKey_sublist_aux (key : MatchTriple → ℕ) (ms : List MatchTriple)
    (ks : List ℕ) (hks : ks.Nodup) :
    ((ks.filterMap (fun k => ms.find? (fun m => key m == k))).map key).Nodup ∧
      ∀ m ∈ ks.filterMap (fun k => ms.find? (fun m => key m == k)), key m ∈ ks ∧ m ∈ ms := by
  induction ks with
  | nil => simp
  | cons k ks ih =>
    have hk : k ∉ ks := (List.nodup_cons.mp hks).1
    have ihs := ih (List.nodup_cons.mp hks).2
    constructor
    · rcases hfind : ms.find? (fun m => key m == k) with _ | m
      · simpa [List.filterMap_cons, hfind] using ihs.1
      · have hkey : key m = k := by
          have := List.find?_some hfind
          simpa using this
        simp only [List.filterMap_cons, hfind, List.map_cons, List.nodup_cons]
        refine ⟨?_, ihs.1⟩
        intro hmem
        rcases List.mem_map.mp hmem with ⟨m', hm', hkm'⟩
        have : key m' ∈ ks := ((ihs.2 m' hm').1)
        rw [hkm'] at this
        rw [hkey] at this
        exact hk this
    · intro m hm
      rcases hfind : ms.find? (fun m => key m == k) with _ | m₀
      · rw [List.filterMap_cons, hfind] at hm
        have := ihs.2 m hm
        exact ⟨List.mem_cons_of_mem _ this.1, this.2⟩
      · rw [List.filterMap_cons, hfind] at hm
        rcases List.mem_cons.mp hm with h | h
        · subst h
          have hkey : key m = k := by
            have := List.find?_some hfind
            simpa using this
          exact ⟨by simp [hkey], List.mem_of_find?_eq_some hfind⟩
        · have := ihs.2 m h
          exact ⟨List.mem_cons_of_mem _ this.1, this.2⟩

theorem uniqueByKey_map_key_nodup (key : MatchTriple → ℕ) (ms : List MatchTriple) :
    ((uniqueByKey key ms).map key).Nodup := by
  unfold uniqueByKey
  exact (uniqueByKey_sublist_aux key ms _ (nodup_sorted_keys _)).1

theorem uniqueByKey_subset (key : MatchTriple → ℕ) (ms : List MatchTriple) :
    ∀ m ∈ uniqueByKey key ms, m ∈ ms := by
  intro m hm
  unfold uniqueByKey at hm
  exact ((uniqueByKey_sublist_aux key ms _ (nodup_sorted_keys _)).2 m hm).2

/-- If mapping `f` over a superlist is duplicate-free, then mapping `f` over
any duplicate-free selection from it is still duplicate-free. -/
theorem nodup_map_of_subset (f g : MatchTriple → ℕ) (big l : List MatchTriple)
    (hbig : (big.map f).Nodup) (hsub : ∀ m ∈ l, m ∈ big) (hl : (l.map g).Nodup) :
    (l.map f).Nodup := by
  refine List.Nodup.map_on ?_ (hl.of_map g)
  intro x hx y hy hxy
  exact List.inj_on_of_nodup_map hbig (hsub x hx) (hsub y hy) hxy

theorem perm_map_nodup {l l' : List MatchTriple} (f : MatchTriple → ℕ)
    (h : List.Perm l l') (hn : (l.map f).Nodup) : (l'.map f).Nodup :=
  ((h.map f).nodup_iff).mp hn

theorem drop_extra_tgt_nodup (ms : List MatchTriple) :
    ((drop_extra_matches ms).map (·.tgt)).Nodup := by
  unfold drop_extra_matches
  split
  · simp [*]
  · exact uniqueByKey_map_key_nodup _ _

theorem drop_extra_prd_nodup (ms : List MatchTriple) :
    ((drop_extra_matches ms).map (·.prd)).Nodup := by
  unfold drop_extra_matches
  split
  · simp [*]
  · set s2 := sortByIouDesc (uniqueByKey (·.prd) (sortByIouDesc ms)) with hs2
    have hprd : (s2.map (·.prd)).Nodup :=
      perm_map_nodup _ (sortByIouDesc_perm _).symm (uniqueByKey_map_key_nodup _ _)
    exact nodup_map_of_subset _ _ s2 _ hprd (uniqueByKey_subset _ s2)
      (uniqueByKey_map_key_nodup _ _)

theorem ap_dedup_tgt_nodup (ms : List MatchTriple) :
    ((ap_dedup ms).map (·.tgt)).Nodup := by
  unfold ap_dedup
  split
  · exact uniqueByKey_map_key_nodup _ _
  · rcases ms with _ | ⟨m, _ | ⟨m', t⟩⟩ <;> simp_all

theorem ap_dedup_prd_nodup (ms : List MatchTriple) :
    ((ap_dedup ms).map (·.prd)).Nodup := by
  unfold ap_dedup
  split
  · set u1 := uniqueByKey (·.prd) (sortByIouDesc ms) with hu1
    exact nodup_map_of_subset _ _ u1 _ (uniqueByKey_map_key_nodup _ _)
      (uniqueByKey_subset _ u1) (uniqueByKey_map_key_nodup _ _)
  · rcases ms with _ | ⟨m, _ | ⟨m', t⟩⟩ <;> simp_all

theorem drop_extra_subset (ms : List MatchTriple) :
    ∀ m ∈ drop_extra_matches ms, m ∈ ms := by
  unfold drop_extra_matches
  split
  · simp
  · intro m hm
    have h1 := uniqueByKey_subset _ _ m hm
    have h2 := (sortByIouDesc_perm _).mem_iff.mp h1
    have h3 := uniqueByKey_subset _ _ m h2
    exact (sortByIouDesc_perm _).mem_iff.mp h3

theorem ap_dedup_subset (ms : List MatchTriple) :
    ∀ m ∈ ap_dedup ms, m ∈ ms := by
  unfold ap_dedup
  split
  · intro m hm
    have h1 := uniqueByKey_subset _ _ m hm
    have h2 := uniqueByKey_subset _ _ m h1
    exact (sortByIouDesc_perm _).mem_iff.mp h2
  · intro m hm
    exact hm

/-- **C4.** For arbitrary candidate match lists, both deduplication routines —
`ConfusionMatrix._drop_extra_matches` and the dedup pass inside
`MeanAveragePrecision._match_detection_batch` — return a list in which every
target index occurs at most once and every prediction index occurs at most
once (the injective-matching invariant). -/
theorem C4_dedup_injective (ms : List MatchTriple) :
    ((drop_extra_matches ms).map (·.tgt)).Nodup ∧
      ((drop_extra_matches ms).map (·.prd)).Nodup ∧
      ((ap_dedup ms).map (·.tgt)).Nodup ∧
      ((ap_dedup ms).map (·.prd)).Nodup :=
  ⟨drop_extra_tgt_nodup ms, drop_extra_prd_nodup ms,
    ap_dedup_tgt_nodup ms, ap_dedup_prd_nodup ms⟩

/-! ## Boxes, rows and the IoU matrix -/

/-- An axis-aligned box `(x_min, y_min, x_max, y_max)`. -/
structure Box where
  x1 : ℚ
  y1 : ℚ
  x2 : ℚ
  y2 : ℚ
  deriving DecidableEq, Repr, Inhabited

/-- Modelled from the spec: `box_iou_batch` is imported from
`supervision/detection/utils.py`, which is not among the given source files.
Spec §4.1: for each pair, intersection area = product of the non-negative
overlaps on each axis; union = area(target) + area(prediction) −
intersection; IoU = intersection / union, with union = 0 → IoU = 0. -/
def box_iou (t p : Box) : ℚ :=
  let ix := max 0 (min t.x2 p.x2 - max t.x1 p.x1)
  let iy := max 0 (min t.y2 p.y2 - max t.y1 p.y1)
  let inter := ix * iy
  let union := (t.x2 - t.x1) * (t.y2 - t.y1) + (p.x2 - p.x1) * (p.y2 - p.y1) - inter
  if union = 0 then 0 else inter / union

/-- One row of a per-image predictions array,
`(x_min, y_min, x_max, y_max, class, conf)`.  The class id is kept as `ℕ`:
the code casts the float class column through `np.int16`, which is the
identity on the valid (non-negative integral) class ids. -/
structure PredRow where
  box : Box
  cls : ℕ
  conf : ℚ
  deriving DecidableEq, Repr, Inhabited

/-- One row of a per-image targets array, `(x_min, y_min, x_max, y_max, class)`. -/
structure TgtRow where
  box : Box
  cls : ℕ
  deriving DecidableEq, Repr, Inhabited

/-- The IoU matrix `box_iou_batch(boxes_true=true_boxes, boxes_detection=detection_boxes)`
as an index function (rows = targets, columns = detections). -/
def iouOf (targets : List TgtRow) (dets : List PredRow) : ℕ → ℕ → ℚ :=
  fun i j => box_iou (targets.getD i default).box (dets.getD j default).box

/-! ## Candidate selection (the two call sites use different comparisons) -/

/-- `np.asarray(iou_batch > iou_threshold).nonzero()` stacked with the IoU
column, in row-major order: the confusion-matrix path collects pairs with
IoU *strictly greater* than the threshold (no class condition). -/
def cm_candidates (iou : ℕ → ℕ → ℚ) (nT nP : ℕ) (thr : ℚ) : List MatchTriple :=
  (List.range nT).flatMap (fun i =>
    (List.range nP).filterMap (fun j =>
      if thr < iou i j then some ⟨i, j, iou i j⟩ else none))

/-- `np.where((iou >= iou_levels[i]) & correct_class)` stacked with the IoU
column, in row-major order: the AP path collects pairs with IoU *greater or
equal* to the level and equal class ids. -/
def ap_candidates (iou : ℕ → ℕ → ℚ) (tcls pcls : ℕ → ℕ) (nT nP : ℕ)
    (level : ℚ) : List MatchTriple :=
  (List.range nT).flatMap (fun i =>
    (List.range nP).filterMap (fun j =>
      if level ≤ iou i j ∧ tcls i = pcls j then some ⟨i, j, iou i j⟩ else none))

theorem mem_cm_candidates (iou : ℕ → ℕ → ℚ) (nT nP : ℕ) (thr : ℚ) (m : MatchTriple) :
    m ∈ cm_candidates iou nT nP thr ↔
      m.tgt < nT ∧ m.prd < nP ∧ thr < iou m.tgt m.prd ∧ m.iou = iou m.tgt m.prd := by
  unfold cm_candidates
  simp only [List.mem_flatMap, List.mem_filterMap, List.mem_range]
  constructor
  · rintro ⟨i, hi, j, hj, hif⟩
    split at hif
    · cases hif
      exact ⟨hi, hj, by assumption, rfl⟩
    · cases hif
  · rintro ⟨hi, hj, hthr, hiou⟩
    refine ⟨m.tgt, hi, m.prd, hj, ?_⟩
    rw [if_pos hthr]
    cases m
    simp_all

theorem mem_ap_candidates (iou : ℕ → ℕ → ℚ) (tcls pcls : ℕ → ℕ) (nT nP : ℕ)
    (level : ℚ) (m : MatchTriple) :
    m ∈ ap_candidates iou tcls pcls nT nP level ↔
      m.tgt < nT ∧ m.prd < nP ∧ (level ≤ iou m.tgt m.prd ∧ tcls m.tgt = pcls m.prd) ∧
        m.iou = iou m.tgt m.prd := by
  unfold ap_candidates
  simp only [List.mem_flatMap, List.mem_filterMap, List.mem_range]
  constructor
  · rintro ⟨i, hi, j, hj, hif⟩
    split at hif
    · cases hif
      exact ⟨hi, hj, by assumption, rfl⟩
    · cases hif
  · rintro ⟨hi, hj, hcond, hiou⟩
    refine ⟨m.tgt, hi, m.prd, hj, ?_⟩
    rw [if_pos hcond]
    cases m
    simp_all

/-- **C6.** For every IoU matrix and threshold, the confusion-matrix path
selects candidate pairs with IoU strictly greater than the threshold while
the AP path selects pairs with IoU greater than or equal to the level (and
equal classes); a pair whose IoU exactly equals the threshold is excluded on
the confusion-matrix path and included on the AP path. -/
theorem C6_threshold_comparisons (iou : ℕ → ℕ → ℚ) (tcls pcls : ℕ → ℕ)
    (nT nP : ℕ) (thr level : ℚ) (i j : ℕ) (hi : i < nT) (hj : j < nP) :
    ((⟨i, j, iou i j⟩ : MatchTriple) ∈ cm_candidates iou nT nP thr ↔ thr < iou i j) ∧
      ((⟨i, j, iou i j⟩ : MatchTriple) ∈ ap_candidates iou tcls pcls nT nP level ↔
        level ≤ iou i j ∧ tcls i = pcls j) ∧
      (iou i j = thr → (⟨i, j, iou i j⟩ : MatchTriple) ∉ cm_candidates iou nT nP thr) ∧
      (iou i j = level → tcls i = pcls j →
        (⟨i, j, iou i j⟩ : MatchTriple) ∈ ap_candidates iou tcls pcls nT nP level) := by
  refine ⟨?_, ?_, ?_, ?_⟩
  · rw [mem_cm_candidates]
    simp [hi, hj]
  · rw [mem_ap_candidates]
    simp [hi, hj]
  · intro heq hmem
    rw [mem_cm_candidates] at hmem
    simp only at hmem
    rw [heq] at hmem
    exact lt_irrefl thr hmem.2.2.1
  · intro heq hcl
    rw [mem_ap_candidates]
    exact ⟨hi, hj, ⟨by rw [heq], hcl⟩, rfl⟩

/-- Witness for C6 at a concrete matrix whose single IoU entry equals the
threshold. -/
theorem C6_threshold_comparisons_witness :
    ((⟨0, 0, (1 : ℚ) / 2⟩ : MatchTriple) ∈
        cm_candidates (fun _ _ => (1 : ℚ) / 2) 1 1 (1 / 2) ↔ (1 : ℚ) / 2 < 1 / 2) ∧
      ((⟨0, 0, (1 : ℚ) / 2⟩ : MatchTriple) ∈
          ap_candidates (fun _ _ => (1 : ℚ) / 2) (fun _ => 3) (fun _ => 3) 1 1 (1 / 2) ↔
        (1 : ℚ) / 2 ≤ 1 / 2 ∧ (3 : ℕ) = 3) ∧
      ((⟨0, 0, (1 : ℚ) / 2⟩ : MatchTriple) ∉
        cm_candidates (fun _ _ => (1 : ℚ) / 2) 1 1 (1 / 2)) ∧
      ((⟨0, 0, (1 : ℚ) / 2⟩ : MatchTriple) ∈
        ap_candidates (fun _ _ => (1 : ℚ) / 2) (fun _ => 3) (fun _ => 3) 1 1 (1 / 2)) := by
  have h := C6_threshold_comparisons (fun _ _ => (1 : ℚ) / 2) (fun _ => 3) (fun _ => 3)
    1 1 (1 / 2) (1 / 2) 0 0 Nat.one_pos Nat.one_pos
  exact ⟨h.1, h.2.1, h.2.2.1 rfl, h.2.2.2 rfl rfl⟩

/-! ## `ConfusionMatrix.evaluate_detection_batch` -/

/-- A confusion matrix, as a total counting function on cell coordinates. -/
abbrev CMat := ℕ → ℕ → ℕ

/-- `result_matrix[r, c] += 1`. -/
def bump (m : CMat) (r c : ℕ) : CMat :=
  fun r' c' => if r' = r ∧ c' = c then m r' c' + 1 else m r' c'

/-- `predictions[confidence > conf_threshold]` (strict comparison). -/
def surviving (predictions : List PredRow) (conf_threshold : ℚ) : List PredRow :=
  predictions.filter (fun p => conf_threshold < p.conf)

/-- The deduplicated matches of the confusion-matrix path for one image. -/
def cm_matches (predictions : List PredRow) (targets : List TgtRow)
    (conf_threshold iou_threshold : ℚ) : List MatchTriple :=
  drop_extra_matches
    (cm_candidates (iouOf targets (surviving predictions conf_threshold))
      targets.length (surviving predictions conf_threshold).length iou_threshold)

/-- The cell incremented by the target loop of `evaluate_detection_batch`
for the `i`-th target: the TP/confusion cell
`(true_class, detection_classes[matched_detection_idx[j]])` when exactly one
deduplicated match has target index `i`, the FN sink column otherwise. -/
def targetCell (mts : List MatchTriple) (dets : List PredRow)
    (num_classes : ℕ) (it : ℕ × TgtRow) : ℕ × ℕ :=
  match mts.filter (fun m => m.tgt == it.1) with
  | [m] => (it.2.cls, (dets.getD m.prd default).cls)
  | _ => (it.2.cls, num_classes)

/-- The cell incremented by the detection loop of `evaluate_detection_batch`
for the `j`-th surviving detection: the FP sink row when `j` is not among
the matched prediction indices, nothing otherwise. -/
def predCell (mts : List MatchTriple) (num_classes : ℕ)
    (jp : ℕ × PredRow) : Option (ℕ × ℕ) :=
  if mts.any (fun m => m.prd == jp.1) then none else some (num_classes, jp.2.cls)

/-- `ConfusionMatrix.evaluate_detection_batch`: filter by confidence, collect
candidates above the IoU threshold, deduplicate greedily, then count TP/FN
per target and FP per unmatched surviving detection. -/
def evaluate_detection_batch (predictions : List PredRow) (targets : List TgtRow)
    (num_classes : ℕ) (conf_threshold iou_threshold : ℚ) : CMat :=
  let dets := surviving predictions conf_threshold
  let mts := cm_matches predictions targets conf_threshold iou_threshold
  let afterTargets := targets.enum.foldl
    (fun acc it => bump acc (targetCell mts dets num_classes it).1
      (targetCell mts dets num_classes it).2)
    (fun _ _ => 0)
  dets.enum.foldl
    (fun acc jp =>
      match predCell mts num_classes jp with
      | some rc => bump acc rc.1 rc.2
      | none => acc)
    afterTargets

/-- Total cell sum of the `n × n` upper-left block of a counting matrix. -/
def matTotal (m : CMat) (n : ℕ) : ℕ :=
  ∑ r ∈ Finset.range n, ∑ c ∈ Finset.range n, m r c

theorem bump_apply (m : CMat) (r c r' c' : ℕ) :
    bump m r c r' c' = m r' c' + if r' = r ∧ c' = c then 1 else 0 := by
  unfold bump
  split <;> simp

theorem bump_total (m : CMat) (n r c : ℕ) (hr : r < n) (hc : c < n) :
    matTotal (bump m r c) n = matTotal m n + 1 := by
  unfold matTotal
  have h : ∀ r' c', bump m r c r' c' = m r' c' + if r' = r ∧ c' = c then 1 else 0 :=
    bump_apply m r c
  simp only [h, Finset.sum_add_distrib]
  congr 1
  have hinner : ∀ r' : ℕ,
      (∑ c' ∈ Finset.range n, if r' = r ∧ c' = c then 1 else 0)
        = if r' = r then 1 else 0 := by
    intro r'
    by_cases hr' : r' = r
    · subst hr'
      simp only [true_and, if_pos rfl]
      have : (∑ c' ∈ Finset.range n, if c' = c then 1 else 0)
          = if c ∈ Finset.range n then 1 else 0 := Finset.sum_ite_eq' _ c (fun _ => 1)
      rw [this, if_pos (Finset.mem_range.mpr hc)]
      simp
    · simp [hr']
  simp only [hinner]
  have : (∑ r' ∈ Finset.range n, if r' = r then 1 else 0)
      = if r ∈ Finset.range n then 1 else 0 := Finset.sum_ite_eq' _ r (fun _ => 1)
  rw [this, if_pos (Finset.mem_range.mpr hr)]

/-- A fold of guarded increments adds, to every cell of the total block, the
number of in-range increments it performs. -/
theorem foldl_bumpOpt_total {α : Type} (g : α → Option (ℕ × ℕ)) (l : List α)
    (init : CMat) (n : ℕ)
    (hg : ∀ a ∈ l, ∀ rc, g a = some rc → rc.1 < n ∧ rc.2 < n) :
    matTotal (l.foldl (fun acc a =>
        match g a with
        | some rc => bump acc rc.1 rc.2
        | none => acc) init) n
      = matTotal init n + (l.filterMap g).length := by
  induction l generalizing init with
  | nil => simp
  | cons a l ih =>
    simp only [List.foldl_cons, List.filterMap_cons]
    rcases hga : g a with _ | rc
    · rw [ih _ (fun b hb => hg b (List.mem_cons_of_mem a hb))]
    · have hb := hg a (List.mem_cons_self a l) rc hga
      rw [ih _ (fun b hb => hg b (List.mem_cons_of_mem a hb)),
        bump_total init n rc.1 rc.2 hb.1 hb.2]
      simp
      omega

/-- The unguarded variant, for the target loop. -/
theorem foldl_bump_total {α : Type} (f : α → ℕ × ℕ) (l : List α)
    (init : CMat) (n : ℕ) (hf : ∀ a ∈ l, (f a).1 < n ∧ (f a).2 < n) :
    matTotal (l.foldl (fun acc a => bump acc (f a).1 (f a).2) init) n
      = matTotal init n + l.length := by
  induction l generalizing init with
  | nil => simp
  | cons a l ih =>
    simp only [List.foldl_cons]
    have hb := hf a (List.mem_cons_self a l)
    rw [ih _ (fun b hb => hf b (List.mem_cons_of_mem a hb)),
      bump_total init n (f a).1 (f a).2 hb.1 hb.2]
    simp
    omega

theorem any_map_general {α β : Type} (f : α → β) (p : β → Bool) (l : List α) :
    (l.map f).any p = l.any (fun a => p (f a)) := by
  induction l with
  | nil => rfl
  | cons a l ih => simp [ih]

theorem length_filterMap_guard {α β : Type} (p : α → Bool) (f : α → β) (l : List α) :
    (l.filterMap (fun a => if p a then none else some (f a))).length
      = (l.filter (fun a => !p a)).length := by
  induction l with
  | nil => rfl
  | cons a l ih => by_cases h : p a <;> simp [h, ih]

/-- Counting the elements of `range n` that lie in a duplicate-free list of
values `< n` recovers the length of that list. -/
theorem length_filter_range_mem (ks : List ℕ) (n : ℕ) (hnd : ks.Nodup)
    (hlt : ∀ k ∈ ks, k < n) :
    ((List.range n).filter (fun j => ks.any (fun k => k == j))).length = ks.length := by
  have hfn : ((List.range n).filter (fun j => ks.any (fun k => k == j))).Nodup :=
    (List.nodup_range n).filter _
  have hmem : ∀ j, j ∈ (List.range n).filter (fun j => ks.any (fun k => k == j)) ↔ j ∈ ks := by
    intro j
    rw [List.mem_filter, List.mem_range]
    constructor
    · rintro ⟨-, h⟩
      rcases List.any_eq_true.mp h with ⟨k, hk, hkj⟩
      rcases Nat.beq_eq_true_eq k j ▸ hkj with rfl
      simpa using hk
    · intro hj
      exact ⟨hlt j hj, List.any_eq_true.mpr ⟨j, hj, by simp⟩⟩
  have h1 : List.Subperm ((List.range n).filter (fun j => ks.any (fun k => k == j))) ks :=
    List.subperm_of_subset hfn (fun j hj => (hmem j).mp hj)
  have h2 : List.Subperm ks ((List.range n).filter (fun j => ks.any (fun k => k == j))) :=
    List.subperm_of_subset hnd (fun j hj => (hmem j).mpr hj)
  exact Nat.le_antisymm h1.length_le h2.length_le

theorem mem_cm_matches (predictions : List PredRow) (targets : List TgtRow)
    (ct it : ℚ) :
    ∀ m ∈ cm_matches predictions targets ct it,
      m.tgt < targets.length ∧ m.prd < (surviving predictions ct).length := by
  intro m hm
  have := drop_extra_subset _ m hm
  rw [mem_cm_candidates] at this
  exact ⟨this.1, this.2.1⟩

/-- **C3.** For every single image, the total cell sum of the confusion
matrix produced by `evaluate_detection_batch` equals (number of targets) +
(number of predictions with confidence strictly above `conf_threshold`) −
(number of matched pairs surviving deduplication).  The class-id bounds are
the implicit well-formedness assumption of the code (NumPy would otherwise
index outside the `(C+1) × (C+1)` matrix). -/
theorem C3_confusion_total (predictions : List PredRow) (targets : List TgtRow)
    (num_classes : ℕ) (conf_threshold iou_threshold : ℚ)
    (htc : ∀ t ∈ targets, t.cls < num_classes)
    (hpc : ∀ p ∈ predictions, p.cls < num_classes) :
    matTotal
        (evaluate_detection_batch predictions targets num_classes conf_threshold iou_threshold)
        (num_classes + 1)
      = targets.length + (surviving predictions conf_threshold).length
        - (cm_matches predictions targets conf_threshold iou_threshold).length := by
  have hdsub : ∀ p ∈ surviving predictions conf_threshold, p ∈ predictions :=
    fun p hp => List.mem_of_mem_filter hp
  set dets := surviving predictions conf_threshold with hdets
  set mts := cm_matches predictions targets conf_threshold iou_threshold with hmts
  have hmem := mem_cm_matches predictions targets conf_threshold iou_threshold
  rw [← hmts] at hmem
  -- the two folds
  unfold evaluate_detection_batch
  rw [← hdets, ← hmts]
  simp only []
  rw [foldl_bumpOpt_total (predCell mts num_classes) dets.enum _ (num_classes + 1) ?hgp]
  case hgp =>
    intro jp hjp rc hrc
    unfold predCell at hrc
    split at hrc
    · cases hrc
    · cases hrc
      obtain ⟨hjlt, hjeq⟩ := List.mem_enum (show (jp.1, jp.2) ∈ dets.enum from hjp)
      have : jp.2 ∈ dets := by
        rw [hjeq]
        exact List.getElem_mem hjlt
      exact ⟨Nat.lt_succ_self _, Nat.lt_succ_of_lt (hpc _ (hdsub _ this))⟩
  rw [foldl_bump_total (targetCell mts dets num_classes) targets.enum _ (num_classes + 1) ?hgt]
  case hgt =>
    intro it hit
    obtain ⟨hilt, hieq⟩ := List.mem_enum (show (it.1, it.2) ∈ targets.enum from hit)
    have htmem : it.2 ∈ targets := by
      rw [hieq]
      exact List.getElem_mem hilt
    unfold targetCell
    rcases hft : mts.filter (fun m => m.tgt == it.1) with _ | ⟨m, _ | ⟨m', tl⟩⟩ <;>
      simp only [hft]
    · exact ⟨Nat.lt_succ_of_lt (htc _ htmem), Nat.lt_succ_self _⟩
    · have hm : m ∈ mts := by
        have hmf : m ∈ mts.filter (fun m => m.tgt == it.1) := by
          rw [hft]
          exact List.mem_cons_self m []
        exact List.mem_of_mem_filter hmf
      have hprd := (hmem m hm).2
      refine ⟨Nat.lt_succ_of_lt (htc _ htmem), Nat.lt_succ_of_lt ?_⟩
      rw [List.getD_eq_getElem dets default hprd]
      exact hpc _ (hdsub _ (List.getElem_mem hprd))
    · exact ⟨Nat.lt_succ_of_lt (htc _ htmem), Nat.lt_succ_self _⟩
  have hzero : matTotal (fun _ _ => 0) (num_classes + 1) = 0 := by
    unfold matTotal
    simp
  rw [hzero, List.enum_length]
  -- count of FP increments
  have hfp : (dets.enum.filterMap (predCell mts num_classes)).length
      = dets.length - mts.length := by
    unfold predCell
    rw [length_filterMap_guard (fun jp => mts.any (fun m => m.prd == jp.1))
      (fun jp => (num_classes, jp.2.cls)) dets.enum]
    -- the filtered-out part counts matched indices
    have hpart : (dets.enum.filter (fun jp => mts.any (fun m => m.prd == jp.1))).length
        + (dets.enum.filter (fun jp => !mts.any (fun m => m.prd == jp.1))).length
        = dets.length := by
      rw [← List.enum_length (l := dets)]
      exact (List.length_eq_length_filter_add
        (fun (jp : ℕ × PredRow) => mts.any (fun m => m.prd == jp.1))).symm
    have hidx : (dets.enum.filter (fun jp => mts.any (fun m => m.prd == jp.1))).length
        = ((List.range dets.length).filter
            (fun j => (mts.map (·.prd)).any (fun k => k == j))).length := by
      have h1 : (List.range dets.length).filter
            (fun j => (mts.map (·.prd)).any (fun k => k == j))
          = ((dets.enum.map Prod.fst).filter
            (fun j => (mts.map (·.prd)).any (fun k => k == j))) := by
        rw [List.enum_map_fst]
      rw [h1, List.filter_map]
      rw [List.length_map]
      congr 1
      apply List.filter_congr
      intro jp _
      show (mts.any fun m => m.prd == jp.1)
          = (List.map (fun x => x.prd) mts).any fun k => k == jp.1
      rw [any_map_general]
    have hcount : ((List.range dets.length).filter
          (fun j => (mts.map (·.prd)).any (fun k => k == j))).length
        = (mts.map (·.prd)).length := by
      apply length_filter_range_mem
      · exact drop_extra_prd_nodup _
      · intro k hk
        rcases List.mem_map.mp hk with ⟨m, hm, rfl⟩
        exact (hmem m hm).2
    rw [hidx, hcount, List.length_map] at hpart
    omega
  rw [hfp]
  -- matches are at most the surviving detections
  have hle : mts.length ≤ dets.length := by
    have hsp : List.Subperm (mts.map (·.prd)) (List.range dets.length) :=
      List.subperm_of_subset (drop_extra_prd_nodup _) (by
        intro k hk
        rcases List.mem_map.mp hk with ⟨m, hm, rfl⟩
        exact List.mem_range.mpr (hmem m hm).2)
    have := hsp.length_le
    rwa [List.length_map, List.length_range] at this
  omega

/-- Witness for C3 at a concrete input: one target of class 0, no
predictions, one model class. -/
theorem C3_confusion_total_witness :
    (∀ t ∈ ([⟨default, 0⟩] : List TgtRow), t.cls < 1) ∧
      (∀ p ∈ ([] : List PredRow), p.cls < 1) ∧
      matTotal (evaluate_detection_batch [] [⟨default, 0⟩] 1 (3 / 10) (1 / 2)) (1 + 1)
        = [(⟨default, 0⟩ : TgtRow)].length + (surviving [] (3 / 10)).length
          - (cm_matches [] [⟨default, 0⟩] (3 / 10) (1 / 2)).length :=
  ⟨by simp, by simp,
    C3_confusion_total [] [⟨default, 0⟩] 1 (3 / 10) (1 / 2) (by simp) (by simp)⟩

/-! ## `MeanAveragePrecision.compute_average_precision`

The NumPy primitives are embedded with the exact semantics of NumPy's C
implementations:

* `np.maximum.accumulate` is a running maximum;
* `np.interp(x, xp, fp)` (for `xp` non-decreasing, which NumPy requires and
  every call site here satisfies): if `x > xp[-1]` return `fp[-1]`; if
  `x < xp[0]` return `fp[0]`; otherwise let `j` be the *largest* index with
  `xp[j] ≤ x` (upper-bound binary search, so for duplicated abscissae the
  last duplicate wins); if `j = len - 1` or `xp[j] = x` return `fp[j]`, else
  interpolate linearly between `(xp[j], fp[j])` and `(xp[j+1], fp[j+1])`;
* `np.trapz(y, x)` sums `(x[i+1] - x[i]) * (y[i] + y[i+1]) / 2`;
* `np.linspace(0, 1, 101)` is `[i / 100 for i in 0..100]`.
-/

/-- Running maximum continuing from `m`. -/
def cummaxFrom (m : ℚ) : List ℚ → List ℚ
  | [] => []
  | a :: l => (max m a) :: cummaxFrom (max m a) l

/-- `np.maximum.accumulate`. -/
def npMaximumAccumulate : List ℚ → List ℚ
  | [] => []
  | a :: l => a :: cummaxFrom a l

/-- Largest index `j` with `xp[j] ≤ x`, for `xp` sorted non-decreasingly:
the elements `≤ x` form a prefix, so their count minus one is that index. -/
def lastLE (xp : List ℚ) (x : ℚ) : ℕ :=
  xp.countP (fun a => decide (a ≤ x)) - 1

/-- `np.interp` at a single query point. -/
def npInterpAt (xp fp : List ℚ) (x : ℚ) : ℚ :=
  if x > xp.getLastD 0 then fp.getLastD 0
  else if x < xp.headD 0 then fp.headD 0
  else if lastLE xp x = xp.length - 1 then fp.getD (lastLE xp x) 0
  else if xp.getD (lastLE xp x) 0 = x then fp.getD (lastLE xp x) 0
  else
    fp.getD (lastLE xp x) 0
      + (fp.getD (lastLE xp x + 1) 0 - fp.getD (lastLE xp x) 0)
        / (xp.getD (lastLE xp x + 1) 0 - xp.getD (lastLE xp x) 0)
          * (x - xp.getD (lastLE xp x) 0)

/-- `np.trapz` over a list of `(x, y)` sample points. -/
def npTrapz : List (ℚ × ℚ) → ℚ
  | (x1, y1) :: (x2, y2) :: rest => (x2 - x1) * (y1 + y2) / 2 + npTrapz ((x2, y2) :: rest)
  | _ => 0

/-- `np.linspace(0, 1, 101)`. -/
def interpolated_recall_levels : List ℚ :=
  (List.range 101).map (fun i : ℕ => (i : ℚ) / 100)

/-- `MeanAveragePrecision.compute_average_precision`: extend the curve by
`(0, 1)` on the left and `(1, 0)` on the right, take the reversed running
maximum of precision (monotone envelope), interpolate it at 101 equally
spaced recall levels, and integrate with the trapezoidal rule. -/
def compute_average_precision (rcl prc : List ℚ) : ℚ :=
  npTrapz (interpolated_recall_levels.zip
    (interpolated_recall_levels.map (npInterpAt ((0 : ℚ) :: rcl ++ [1])
      ((npMaximumAccumulate ((1 : ℚ) :: prc ++ [0]).reverse).reverse))))

set_option maxRecDepth 4000 in
set_option maxHeartbeats 2000000 in
/-- On the "perfect" curve `recall = [0, 1]`, `precision = [1, 1]`, the
interpolated envelope is 1 at the 100 recall levels below 1 but 0 at recall
level 1 exactly (the appended `(1, 0)` sentinel is the last duplicate of
abscissa 1, and `np.interp` returns the last duplicate's ordinate), so the
trapezoidal integral is `199/200 = 0.995`, not `1.0`. -/
theorem ap_perfect_eval : compute_average_precision [0, 1] [1, 1] = 199 / 200 := by
  norm_num [compute_average_precision, interpolated_recall_levels, npInterpAt, lastLE,
    npMaximumAccumulate, cummaxFrom, npTrapz, List.range_succ, List.countP_cons]

set_option maxRecDepth 4000 in
set_option maxHeartbeats 2000000 in
/-- On the empty curve the extended points are `recall = [0, 1]`,
`precision = [1, 0]`; interpolation yields `1 - x`, whose 101-point
trapezoidal integral is `1/2`, not `0.0`. -/
theorem ap_empty_eval : compute_average_precision [] [] = 1 / 2 := by
  norm_num [compute_average_precision, interpolated_recall_levels, npInterpAt, lastLE,
    npMaximumAccumulate, cummaxFrom, npTrapz, List.range_succ, List.countP_cons]

/-- **C2, counterexample.**  `compute_average_precision` returns neither
`1.0` on the perfect curve `recall = [0, 1]`, `precision = [1, 1]` nor
`0.0` on the empty curve. -/
theorem C2_counterexample :
    compute_average_precision [0, 1] [1, 1] ≠ 1 ∧ compute_average_precision [] [] ≠ 0 := by
  rw [ap_perfect_eval, ap_empty_eval]
  norm_num

/-- **C2, amended.**  `compute_average_precision` applied to the curve
`recall = [0, 1]`, `precision = [1, 1]` returns exactly `199/200 = 0.995`,
and applied to empty recall and precision arrays returns exactly `1/2`. -/
theorem C2_average_precision_values :
    compute_average_precision [0, 1] [1, 1] = 199 / 200 ∧
      compute_average_precision [] [] = 1 / 2 :=
  ⟨ap_perfect_eval, ap_empty_eval⟩

/-! ## `MeanAveragePrecision._match_detection_batch` and `from_tensors` -/

/-- `np.linspace(0.5, 0.95, 10)`. -/
def iou_levels : List ℚ :=
  (List.range 10).map (fun i : ℕ => 1 / 2 + (i : ℚ) * (1 / 20))

/-- The deduplicated class-aware matches of the AP path for one image at one
IoU level. -/
def ap_matches_at (preds : List PredRow) (tgts : List TgtRow) (level : ℚ) : List MatchTriple :=
  ap_dedup (ap_candidates (iouOf tgts preds)
    (fun i => (tgts.getD i default).cls) (fun j => (preds.getD j default).cls)
    tgts.length preds.length level)

/-- `MeanAveragePrecision._match_detection_batch`: the boolean
`correct[prediction_index, iou_level]` matrix; a cell is `True` exactly when
that prediction index survives the per-level greedy dedup. -/
def match_detection_batch (preds : List PredRow) (tgts : List TgtRow) : List (List Bool) :=
  (List.range preds.length).map (fun p =>
    iou_levels.map (fun level => (ap_matches_at preds tgts level).any (fun m => m.prd == p)))

/-- One row of the accumulated AP statistics: a `correct` boolean row, the
prediction's confidence and its class id (the three arrays the code keeps in
parallel and reorders together). -/
structure StatRow where
  correct : List Bool
  conf : ℚ
  pcl : ℕ
  deriving DecidableEq, Repr, Inhabited

/-- `np.argsort(-prediction_confidence)` applied to the parallel arrays:
stable sort by confidence descending. -/
def sortByConfDesc (rows : List StatRow) : List StatRow :=
  rows.insertionSort (fun a b => b.conf ≤ a.conf)

/-- `np.unique(true_batch_class_ids)`: sorted distinct class ids. -/
def uniqueClasses (tcls : List ℕ) : List ℕ :=
  (tcls.dedup).insertionSort (· ≤ ·)

/-- The recall curve of one class at column `j`: cumulative true positives
over `num_targets + eps`, with `eps = 1e-16` as in the code. -/
def recallCurve (valid : List StatRow) (num_targets : ℕ) (j : ℕ) : List ℚ :=
  (List.range valid.length).map (fun i =>
    (((valid.take (i + 1)).map (fun r => r.correct.getD j false)).count true : ℚ)
      / ((num_targets : ℚ) + 1 / 10 ^ 16))

/-- The precision curve of one class at column `j`: cumulative true
positives over (cumulative true positives + cumulative false positives). -/
def precisionCurve (valid : List StatRow) (j : ℕ) : List ℚ :=
  (List.range valid.length).map (fun i =>
    (((valid.take (i + 1)).map (fun r => r.correct.getD j false)).count true : ℚ)
      / ((((valid.take (i + 1)).map (fun r => r.correct.getD j false)).count true : ℚ)
        + (((valid.take (i + 1)).map (fun r => r.correct.getD j false)).count false : ℚ)))

/-- `MeanAveragePrecision._average_precisions_per_class`: sort the parallel
statistics by confidence descending, then for every class observed among
the targets (ascending) compute the per-IoU-level AP row; classes with zero
assigned predictions (or zero targets) keep their all-zero row. -/
def average_precisions_per_class (ncols : ℕ) (rows : List StatRow) (tcls : List ℕ) :
    List (List ℚ) :=
  let sortedRows := sortByConfDesc rows
  (uniqueClasses tcls).map (fun c =>
    let valid := sortedRows.filter (fun r => r.pcl == c)
    let num_targets := tcls.count c
    if valid.length = 0 ∨ num_targets = 0 then List.replicate ncols 0
    else (List.range ncols).map (fun j =>
      compute_average_precision (recallCurve valid num_targets j) (precisionCurve valid j)))

/-- The per-image contribution appended to `stats` by the accumulation loop
of `MeanAveragePrecision.from_tensors`:
* no predictions, some targets: an empty `correct` matrix (zero rows), empty
  confidence/class vectors, and the image's target class ids;
* some predictions, some targets: the matched `correct` matrix with the
  parallel confidence/class vectors and target class ids;
* no targets: nothing. -/
def stats_entry (detection_batch : List PredRow) (true_batch : List TgtRow) :
    Option (List (List Bool) × List ℚ × List ℕ × List ℕ) :=
  if detection_batch.length = 0 then
    if true_batch.length ≠ 0 then some ([], [], [], true_batch.map (·.cls)) else none
  else if true_batch.length ≠ 0 then
    some (match_detection_batch detection_batch true_batch,
      detection_batch.map (·.conf), detection_batch.map (·.cls), true_batch.map (·.cls))
  else none

/-- All per-image contributions, in image order. -/
def stacked_stats (predictions : List (List PredRow)) (targets : List (List TgtRow)) :
    List (List (List Bool) × List ℚ × List ℕ × List ℕ) :=
  (targets.zip predictions).filterMap (fun tp => stats_entry tp.2 tp.1)

/-- The concatenated `correct` matrix (`stats[0]` after concatenation). -/
def all_correct (predictions : List (List PredRow)) (targets : List (List TgtRow)) :
    List (List Bool) :=
  (stacked_stats predictions targets).flatMap (·.1)

/-- The parallel statistics rows of one `stats` entry. -/
def entry_rows (e : List (List Bool) × List ℚ × List ℕ × List ℕ) : List StatRow :=
  (e.1.zip (e.2.1.zip e.2.2.1)).map (fun x => ⟨x.1, x.2.1, x.2.2⟩)

/-- The concatenated parallel statistics rows. -/
def all_rows (predictions : List (List PredRow)) (targets : List (List TgtRow)) :
    List StatRow :=
  (stacked_stats predictions targets).flatMap entry_rows

/-- The concatenated target class ids (`stats[3]` after concatenation). -/
def all_tcls (predictions : List (List PredRow)) (targets : List (List TgtRow)) : List ℕ :=
  (stacked_stats predictions targets).flatMap (·.2.2.2)

/-- `np.mean` of a list of rationals. -/
def listMean (l : List ℚ) : ℚ := l.sum / l.length

/-- The result record of `MeanAveragePrecision.from_tensors`.  Note that the
`per_class_ap` field receives `average_precisions.mean(1)` — the per-class
*means* over the ten IoU levels, a one-dimensional vector — because the code
rebinds `average_precisions` to its row means before constructing the
dataclass. -/
structure MAPResult where
  map : ℚ
  map50 : ℚ
  map75 : ℚ
  per_class_ap : List ℚ
  deriving DecidableEq, Repr

/-- `MeanAveragePrecision.from_tensors` (after input validation). -/
def from_tensors_map (predictions : List (List PredRow)) (targets : List (List TgtRow)) :
    MAPResult :=
  let entries := stacked_stats predictions targets
  if entries ≠ [] ∧ (all_correct predictions targets).any (fun r => r.any id) then
    let table := average_precisions_per_class 10
      (all_rows predictions targets) (all_tcls predictions targets)
    let ap50 := table.map (fun r => r.getD 0 0)
    let ap75 := table.map (fun r => r.getD 5 0)
    let perClassMeans := table.map listMean
    ⟨listMean perClassMeans, listMean ap50, listMean ap75, perClassMeans⟩
  else ⟨0, 0, 0, []⟩

/-- **C9.** If no prediction anywhere in the dataset is marked correct at
any IoU level, `from_tensors` reports `map = map50 = map75 = 0` and an
empty per-class table (and, being a total function here, no error). -/
theorem C9_degenerate_zero (predictions : List (List PredRow))
    (targets : List (List TgtRow))
    (h : ∀ r ∈ all_correct predictions targets, ∀ b ∈ r, b = false) :
    from_tensors_map predictions targets = ⟨0, 0, 0, []⟩ := by
  unfold from_tensors_map
  rw [if_neg]
  intro hcond
  rcases List.any_eq_true.mp hcond.2 with ⟨r, hr, hrow⟩
  rcases List.any_eq_true.mp hrow with ⟨b, hb, hbt⟩
  have := h r hr b hb
  simp [this] at hbt

/-- Witness for C9: one image with one target and no predictions. -/
theorem C9_degenerate_zero_witness :
    (∀ r ∈ all_correct [[]] [[(⟨default, 0⟩ : TgtRow)]], ∀ b ∈ r, b = false) ∧
      from_tensors_map [[]] [[(⟨default, 0⟩ : TgtRow)]] = ⟨0, 0, 0, []⟩ :=
  ⟨by simp [all_correct, stacked_stats, stats_entry],
    C9_degenerate_zero [[]] [[(⟨default, 0⟩ : TgtRow)]]
      (by simp [all_correct, stacked_stats, stats_entry])⟩

/-- **C8, counterexample.**  An image with zero predictions and one target
contributes *zero* rows to the stacked `correct` matrix (the code appends
`np.zeros((0, 10))`), not one all-false row per target as claimed. -/
theorem C8_counterexample :
    (all_correct [[]] [[(⟨default, 0⟩ : TgtRow)]]).length = 0 ∧
      ([(⟨default, 0⟩ : TgtRow)] : List TgtRow).length = 1 ∧ (0 : ℕ) ≠ 1 := by
  refine ⟨?_, rfl, by decide⟩
  simp [all_correct, stacked_stats, stats_entry]

/-- **C8, amended.**  An image with zero predictions and at least one target
contributes an *empty* `correct` matrix (no rows) together with its target
class ids (which is what keeps the recall denominators correct), and an
image with zero targets contributes nothing to the accumulated statistics. -/
theorem C8_zero_prediction_contribution (detection_batch : List PredRow)
    (true_batch : List TgtRow) :
    (detection_batch = [] → true_batch ≠ [] →
      stats_entry detection_batch true_batch = some ([], [], [], true_batch.map (·.cls))) ∧
      (true_batch = [] → stats_entry detection_batch true_batch = none) := by
  constructor
  · rintro rfl hne
    unfold stats_entry
    rw [if_pos (by simp), if_pos]
    simpa using hne
  · rintro rfl
    unfold stats_entry
    rcases detection_batch with _ | ⟨p, ps⟩ <;> simp

/-- Witness for C8's amended statement. -/
theorem C8_zero_prediction_contribution_witness :
    stats_entry [] [(⟨default, 3⟩ : TgtRow)] = some ([], [], [], [3]) ∧
      stats_entry [(⟨default, 3, 1⟩ : PredRow)] [] = none :=
  ⟨by
    have h := (C8_zero_prediction_contribution [] [(⟨default, 3⟩ : TgtRow)]).1 rfl (by simp)
    simpa using h,
    (C8_zero_prediction_contribution [(⟨default, 3, 1⟩ : PredRow)] []).2 rfl⟩

theorem mem_uniqueClasses (tcls : List ℕ) (c : ℕ) (h : c ∈ tcls) : c ∈ uniqueClasses tcls := by
  unfold uniqueClasses
  rw [(List.perm_insertionSort _ _).mem_iff]
  exact List.mem_dedup.mpr h

theorem getD_map_indexOf (l : List ℕ) (c : ℕ) (f : ℕ → List ℚ) (hc : c ∈ l) :
    (l.map f).getD (l.indexOf c) [] = f c := by
  have hlt : l.indexOf c < l.length := List.indexOf_lt_length.mpr hc
  rw [List.getD_eq_getElem _ _ (by simpa using hlt), List.getElem_map]
  congr 1
  exact List.getElem_indexOf hlt

/-- **C10.**  A class id `c` observed among targets but never assigned to
any prediction keeps its all-zero AP row (the loop body `continue`s without
writing it), and that zero row still participates — with full weight — in
the class means producing `map`, `map50`, `map75`: the table has one row per
observed class and the three scalars are plain means over all of its rows. -/
theorem C10_unpredicted_class_zero_row (predictions : List (List PredRow))
    (targets : List (List TgtRow)) (c : ℕ)
    (hc : c ∈ all_tcls predictions targets)
    (hnp : ∀ r ∈ all_rows predictions targets, r.pcl ≠ c)
    (hbr : stacked_stats predictions targets ≠ [] ∧
      (all_correct predictions targets).any (fun r => r.any id) = true) :
    (average_precisions_per_class 10 (all_rows predictions targets)
          (all_tcls predictions targets)).getD
        ((uniqueClasses (all_tcls predictions targets)).indexOf c) []
      = List.replicate 10 0 ∧
    (average_precisions_per_class 10 (all_rows predictions targets)
        (all_tcls predictions targets)).length
      = (uniqueClasses (all_tcls predictions targets)).length ∧
    (from_tensors_map predictions targets).map50
      = listMean ((average_precisions_per_class 10 (all_rows predictions targets)
          (all_tcls predictions targets)).map (fun r => r.getD 0 0)) ∧
    (from_tensors_map predictions targets).map75
      = listMean ((average_precisions_per_class 10 (all_rows predictions targets)
          (all_tcls predictions targets)).map (fun r => r.getD 5 0)) ∧
    (from_tensors_map predictions targets).map
      = listMean ((average_precisions_per_class 10 (all_rows predictions targets)
          (all_tcls predictions targets)).map listMean) := by
  have hcu : c ∈ uniqueClasses (all_tcls predictions targets) :=
    mem_uniqueClasses _ c hc
  refine ⟨?_, ?_, ?_, ?_, ?_⟩
  · unfold average_precisions_per_class
    rw [getD_map_indexOf _ c _ hcu]
    have hfilter : (sortByConfDesc (all_rows predictions targets)).filter
        (fun r => r.pcl == c) = [] := by
      rw [List.filter_eq_nil]
      intro r hr
      have hmem : r ∈ all_rows predictions targets := by
        unfold sortByConfDesc at hr
        exact (List.perm_insertionSort _ _).mem_iff.mp hr
      simpa using hnp r hmem
    rw [hfilter]
    simp
  · unfold average_precisions_per_class
    simp
  · unfold from_tensors_map
    rw [if_pos ⟨hbr.1, hbr.2⟩]
  · unfold from_tensors_map
    rw [if_pos ⟨hbr.1, hbr.2⟩]
  · unfold from_tensors_map
    rw [if_pos ⟨hbr.1, hbr.2⟩]

/-- Concrete predictions for the C10 witness: one detection of class 0. -/
def c10P : List (List PredRow) := [[⟨⟨0, 0, 1, 1⟩, 0, 9 / 10⟩]]

/-- Concrete targets for the C10 witness: one class-0 target matching the
detection and one far-away class-1 target (class 1 is never predicted). -/
def c10T : List (List TgtRow) := [[⟨⟨0, 0, 1, 1⟩, 0⟩, ⟨⟨5, 5, 6, 6⟩, 1⟩]]

theorem c10_hc : 1 ∈ all_tcls c10P c10T := by
  simp [all_tcls, stacked_stats, stats_entry, c10P, c10T]

theorem c10_hnp : ∀ r ∈ all_rows c10P c10T, r.pcl ≠ 1 := by
  intro r hr
  simp only [all_rows, entry_rows, stacked_stats, stats_entry, c10P, c10T,
    match_detection_batch] at hr
  simp [List.range_succ] at hr
  cases hr with
  | head => decide
  | tail _ hr => cases hr

theorem iou_levels_eval :
    iou_levels = [1 / 2, 11 / 20, 3 / 5, 13 / 20, 7 / 10, 3 / 4, 4 / 5, 17 / 20, 9 / 10, 19 / 20] := by
  rw [iou_levels, show List.range 10 = [0, 1, 2, 3, 4, 5, 6, 7, 8, 9] from rfl]
  norm_num

theorem c10_level_match :
    (ap_matches_at [⟨⟨0, 0, 1, 1⟩, 0, 9 / 10⟩] [⟨⟨0, 0, 1, 1⟩, 0⟩, ⟨⟨5, 5, 6, 6⟩, 1⟩]
      (1 / 2)).any (fun m => m.prd == 0) = true := by
  have hcand : ap_candidates
      (iouOf [⟨⟨0, 0, 1, 1⟩, 0⟩, ⟨⟨5, 5, 6, 6⟩, 1⟩] [⟨⟨0, 0, 1, 1⟩, 0, 9 / 10⟩])
      (fun i => (([⟨⟨0, 0, 1, 1⟩, 0⟩, ⟨⟨5, 5, 6, 6⟩, 1⟩] : List TgtRow).getD i default).cls)
      (fun j => (([⟨⟨0, 0, 1, 1⟩, 0, 9 / 10⟩] : List PredRow).getD j default).cls)
      ([⟨⟨0, 0, 1, 1⟩, 0⟩, ⟨⟨5, 5, 6, 6⟩, 1⟩] : List TgtRow).length
      ([⟨⟨0, 0, 1, 1⟩, 0, 9 / 10⟩] : List PredRow).length (1 / 2) = [⟨0, 0, 1⟩] := by
    rw [ap_candidates]
    rw [show (([⟨⟨0, 0, 1, 1⟩, 0⟩, ⟨⟨5, 5, 6, 6⟩, 1⟩] : List TgtRow)).length = 2 from rfl,
      show (([⟨⟨0, 0, 1, 1⟩, 0, 9 / 10⟩] : List PredRow)).length = 1 from rfl,
      show List.range 2 = [0, 1] from rfl, show List.range 1 = [0] from rfl]
    simp only [List.flatMap_cons, List.flatMap_nil, List.filterMap_cons, List.filterMap_nil]
    norm_num [iouOf, box_iou]
  rw [ap_matches_at, hcand, ap_dedup]
  norm_num

theorem c10_hbr : stacked_stats c10P c10T ≠ [] ∧
    (all_correct c10P c10T).any (fun r => r.any id) = true := by
  constructor
  · simp [stacked_stats, stats_entry, c10P, c10T]
  · have hacr : all_correct c10P c10T
        = [iou_levels.map (fun level =>
            (ap_matches_at [⟨⟨0, 0, 1, 1⟩, 0, 9 / 10⟩]
              [⟨⟨0, 0, 1, 1⟩, 0⟩, ⟨⟨5, 5, 6, 6⟩, 1⟩] level).any (fun m => m.prd == 0))] := by
      simp [all_correct, stacked_stats, stats_entry, c10P, c10T, match_detection_batch,
        List.range_succ]
    rw [hacr]
    simp only [List.any_cons, List.any_nil, Bool.or_false]
    apply List.any_eq_true.mpr
    refine ⟨true, List.mem_map.mpr ⟨1 / 2, ?_, c10_level_match⟩, rfl⟩
    rw [iou_levels_eval]
    simp

/-- Witness for C10 at the concrete input above (class 1 observed among
targets, never predicted). -/
theorem C10_unpredicted_class_zero_row_witness :
    (1 ∈ all_tcls c10P c10T) ∧
    (∀ r ∈ all_rows c10P c10T, r.pcl ≠ 1) ∧
    (stacked_stats c10P c10T ≠ [] ∧
      (all_correct c10P c10T).any (fun r => r.any id) = true) ∧
    ((average_precisions_per_class 10 (all_rows c10P c10T) (all_tcls c10P c10T)).getD
        ((uniqueClasses (all_tcls c10P c10T)).indexOf 1) [] = List.replicate 10 0 ∧
      (average_precisions_per_class 10 (all_rows c10P c10T) (all_tcls c10P c10T)).length
        = (uniqueClasses (all_tcls c10P c10T)).length ∧
      (from_tensors_map c10P c10T).map50
        = listMean ((average_precisions_per_class 10 (all_rows c10P c10T)
            (all_tcls c10P c10T)).map (fun r => r.getD 0 0)) ∧
      (from_tensors_map c10P c10T).map75
        = listMean ((average_precisions_per_class 10 (all_rows c10P c10T)
            (all_tcls c10P c10T)).map (fun r => r.getD 5 0)) ∧
      (from_tensors_map c10P c10T).map
        = listMean ((average_precisions_per_class 10 (all_rows c10P c10T)
            (all_tcls c10P c10T)).map listMean)) :=
  ⟨c10_hc, c10_hnp, c10_hbr,
    C10_unpredicted_class_zero_row c10P c10T 1 c10_hc c10_hnp c10_hbr⟩

/-! ## `validate_input_tensors` and the raw-tensor entry points -/

/-- A raw per-image array: a list of rows of rationals. -/
abbrev RawArray := List (List ℚ)

/-- `a.shape[1]` of a 2-D array modelled as a list of rows.  (NumPy would
also keep a column count for a 0-row array; the list model reads it from
the first row, which is the only case the claims exercise.) -/
def ncols (a : RawArray) : ℕ := (a.headD []).length

/-- `validate_input_tensors`: `true` means validation passes.  The code
checks only the list lengths and the column counts of the *first* image's
arrays (`predictions[0].shape[1]`, `targets[0].shape[1]`); the `isinstance`
check is a non-issue in the typed model. -/
def validate_input_tensors (predictions targets : List RawArray) : Bool :=
  if predictions.length ≠ targets.length then false
  else if 0 < predictions.length then
    if ncols (predictions.headD []) ≠ 6 then false
    else if ncols (targets.headD []) ≠ 5 then false
    else true
  else true

/-- Reading one prediction row during computation: the code accesses columns
0–3 (box), 4 (class id, cast through `np.int16`) and 5 (confidence).  A row
with fewer than 6 columns makes NumPy raise an `IndexError` *during*
computation; that failure is modelled as `none`. -/
def parse_pred_row (r : List ℚ) : Option PredRow :=
  if 6 ≤ r.length then
    some ⟨⟨r.getD 0 0, r.getD 1 0, r.getD 2 0, r.getD 3 0⟩,
      (r.getD 4 0).floor.toNat, r.getD 5 0⟩
  else none

/-- Reading one target row during computation (columns 0–3 box, 4 class). -/
def parse_tgt_row (r : List ℚ) : Option TgtRow :=
  if 5 ≤ r.length then
    some ⟨⟨r.getD 0 0, r.getD 1 0, r.getD 2 0, r.getD 3 0⟩, (r.getD 4 0).floor.toNat⟩
  else none

/-- `ConfusionMatrix.from_tensors`: validate first, then sum the per-image
matrices.  `none` models an exception — a validation failure raised before
any computation, or an indexing failure during it. -/
def confusion_from_tensors (predictions targets : List RawArray)
    (classes : List String) (conf_threshold iou_threshold : ℚ) : Option CMat :=
  if validate_input_tensors predictions targets then
    (do
      let preds ← predictions.mapM (fun a => a.mapM parse_pred_row)
      let tgts ← targets.mapM (fun a => a.mapM parse_tgt_row)
      pure ((tgts.zip preds).foldl
        (fun acc tp => fun r c => acc r c +
          evaluate_detection_batch tp.2 tp.1 classes.length conf_threshold iou_threshold r c)
        (fun _ _ => 0)))
  else none

/-- `MeanAveragePrecision.from_tensors` on raw tensors: validate first. -/
def map_from_tensors_raw (predictions targets : List RawArray) : Option MAPResult :=
  if validate_input_tensors predictions targets then
    (do
      let preds ← predictions.mapM (fun a => a.mapM parse_pred_row)
      let tgts ← targets.mapM (fun a => a.mapM parse_tgt_row)
      pure (from_tensors_map preds tgts))
  else none

/-- **C5, counterexample.**  A predictions list whose *second* image array
has only 5 columns passes `validate_input_tensors` unchanged — no error is
raised before computation starts, contradicting the claim that any
wrong-column-count image is rejected up front. -/
theorem C5_counterexample :
    validate_input_tensors
        [[[0, 0, 1, 1, 0, 9 / 10]], [[0, 0, 1, 1, 0]]]
        [[[0, 0, 1, 1, 0]], [[0, 0, 1, 1, 0]]] = true ∧
      ncols ([[0, 0, 1, 1, 0]] : RawArray) ≠ 6 := by
  constructor
  · rfl
  · decide

/-- **C5, amended.**  Validation fails — and both `from_tensors` entry
points raise before any computation, returning no partial result — exactly
for a predictions/targets list-length mismatch or a wrong column count of
the *first* image's arrays; later images' column counts are not validated. -/
theorem C5_validation_first_image (predictions targets : List RawArray)
    (classes : List String) (conf_threshold iou_threshold : ℚ) :
    (validate_input_tensors predictions targets = false ↔
      predictions.length ≠ targets.length ∨
        (0 < predictions.length ∧
          (ncols (predictions.headD []) ≠ 6 ∨ ncols (targets.headD []) ≠ 5))) ∧
      (validate_input_tensors predictions targets = false →
        confusion_from_tensors predictions targets classes conf_threshold iou_threshold
            = none ∧
          map_from_tensors_raw predictions targets = none) := by
  constructor
  · unfold validate_input_tensors
    split_ifs with h1 h2 h3 h4 <;> simp_all
  · intro hv
    constructor
    · unfold confusion_from_tensors
      rw [hv]
      rfl
    · unfold map_from_tensors_raw
      rw [hv]
      rfl

/-- Witness for C5's amended statement at a concrete length mismatch. -/
theorem C5_validation_first_image_witness :
    (validate_input_tensors [] [[[0, 0, 1, 1, 0]]] = false ↔
      ([] : List RawArray).length ≠ [[[0, 0, 1, 1, 0]]].length ∨
        (0 < ([] : List RawArray).length ∧
          (ncols (([] : List RawArray).headD []) ≠ 6 ∨
            ncols (([[[0, 0, 1, 1, 0]]] : List RawArray).headD []) ≠ 5))) ∧
      (confusion_from_tensors [] [[[0, 0, 1, 1, 0]]] [] (3 / 10) (1 / 2) = none ∧
        map_from_tensors_raw [] [[[0, 0, 1, 1, 0]]] = none) :=
  ⟨(C5_validation_first_image [] [[[0, 0, 1, 1, 0]]] [] (3 / 10) (1 / 2)).1,
    (C5_validation_first_image [] [[[0, 0, 1, 1, 0]]] [] (3 / 10) (1 / 2)).2 rfl⟩

/-! ## The `per_class_ap` field (claim C1) -/

/-- C1 counterexample predictions: one class-0 detection whose box overlaps
the target with IoU exactly 7/10. -/
def c1P : List (List PredRow) := [[⟨⟨0, 0, 10, 7⟩, 0, 9 / 10⟩]]

/-- C1 counterexample targets: one class-0 target. -/
def c1T : List (List TgtRow) := [[⟨⟨0, 0, 10, 10⟩, 0⟩]]

theorem c1_iou : iouOf [⟨⟨0, 0, 10, 10⟩, 0⟩] [⟨⟨0, 0, 10, 7⟩, 0, 9 / 10⟩] 0 0 = 7 / 10 := by
  norm_num [iouOf, box_iou]

theorem c1_cand_lo (level : ℚ) (h : level ≤ 7 / 10) :
    ap_candidates (iouOf [⟨⟨0, 0, 10, 10⟩, 0⟩] [⟨⟨0, 0, 10, 7⟩, 0, 9 / 10⟩])
      (fun i => (([⟨⟨0, 0, 10, 10⟩, 0⟩] : List TgtRow).getD i default).cls)
      (fun j => (([⟨⟨0, 0, 10, 7⟩, 0, 9 / 10⟩] : List PredRow).getD j default).cls)
      1 1 level = [⟨0, 0, 7 / 10⟩] := by
  rw [ap_candidates, show List.range 1 = [0] from rfl]
  simp only [List.flatMap_cons, List.flatMap_nil, List.filterMap_cons, List.filterMap_nil,
    List.append_nil]
  rw [c1_iou, if_pos ⟨h, rfl⟩]

theorem c1_cand_hi (level : ℚ) (h : ¬level ≤ 7 / 10) :
    ap_candidates (iouOf [⟨⟨0, 0, 10, 10⟩, 0⟩] [⟨⟨0, 0, 10, 7⟩, 0, 9 / 10⟩])
      (fun i => (([⟨⟨0, 0, 10, 10⟩, 0⟩] : List TgtRow).getD i default).cls)
      (fun j => (([⟨⟨0, 0, 10, 7⟩, 0, 9 / 10⟩] : List PredRow).getD j default).cls)
      1 1 level = [] := by
  rw [ap_candidates, show List.range 1 = [0] from rfl]
  simp only [List.flatMap_cons, List.flatMap_nil, List.filterMap_cons, List.filterMap_nil,
    List.append_nil]
  rw [c1_iou, if_neg (fun hc => h hc.1)]

theorem c1_match_lo (level : ℚ) (h : level ≤ 7 / 10) :
    ap_matches_at [⟨⟨0, 0, 10, 7⟩, 0, 9 / 10⟩] [⟨⟨0, 0, 10, 10⟩, 0⟩] level
      = [⟨0, 0, 7 / 10⟩] := by
  rw [ap_matches_at,
    show ([⟨⟨0, 0, 10, 10⟩, 0⟩] : List TgtRow).length = 1 from rfl,
    show ([⟨⟨0, 0, 10, 7⟩, 0, 9 / 10⟩] : List PredRow).length = 1 from rfl,
    c1_cand_lo level h, ap_dedup]
  norm_num

theorem c1_match_hi (level : ℚ) (h : ¬level ≤ 7 / 10) :
    ap_matches_at [⟨⟨0, 0, 10, 7⟩, 0, 9 / 10⟩] [⟨⟨0, 0, 10, 10⟩, 0⟩] level = [] := by
  rw [ap_matches_at,
    show ([⟨⟨0, 0, 10, 10⟩, 0⟩] : List TgtRow).length = 1 from rfl,
    show ([⟨⟨0, 0, 10, 7⟩, 0, 9 / 10⟩] : List PredRow).length = 1 from rfl,
    c1_cand_hi level h, ap_dedup]
  norm_num

theorem c1_correct_row :
    match_detection_batch [⟨⟨0, 0, 10, 7⟩, 0, 9 / 10⟩] [⟨⟨0, 0, 10, 10⟩, 0⟩]
      = [[true, true, true, true, true, false, false, false, false, false]] := by
  rw [match_detection_batch,
    show ([⟨⟨0, 0, 10, 7⟩, 0, 9 / 10⟩] : List PredRow).length = 1 from rfl,
    show List.range 1 = [0] from rfl]
  simp only [List.map_cons, List.map_nil]
  rw [iou_levels_eval]
  simp only [List.map_cons, List.map_nil]
  rw [c1_match_lo (1 / 2) (by norm_num), c1_match_lo (11 / 20) (by norm_num),
    c1_match_lo (3 / 5) (by norm_num), c1_match_lo (13 / 20) (by norm_num),
    c1_match_lo (7 / 10) (by norm_num), c1_match_hi (3 / 4) (by norm_num),
    c1_match_hi (4 / 5) (by norm_num), c1_match_hi (17 / 20) (by norm_num),
    c1_match_hi (9 / 10) (by norm_num), c1_match_hi (19 / 20) (by norm_num)]
  simp

theorem c1_rows :
    all_rows c1P c1T
      = [⟨[true, true, true, true, true, false, false, false, false, false], 9 / 10, 0⟩] := by
  simp only [all_rows, entry_rows, stacked_stats, stats_entry, c1P, c1T]
  simp [c1_correct_row, entry_rows]

theorem c1_tcls : all_tcls c1P c1T = [0] := by
  simp [all_tcls, stacked_stats, stats_entry, c1P, c1T]

set_option maxRecDepth 4000 in
set_option maxHeartbeats 2000000 in
/-- AP of the one-point curve recall `[10^16/(10^16+1)]` (one true positive,
one target, eps-shifted denominator), precision `[1]`. -/
theorem ap_single_hit_eval :
    compute_average_precision [(10000000000000000 : ℚ) / 10000000000000001] [1]
      = 199 / 200 := by
  norm_num [compute_average_precision, interpolated_recall_levels, npInterpAt, lastLE,
    npMaximumAccumulate, cummaxFrom, npTrapz, List.range_succ, List.countP_cons]

set_option maxRecDepth 4000 in
set_option maxHeartbeats 2000000 in
/-- AP of the one-point curve recall `[0]`, precision `[0]` (one false
positive). -/
theorem ap_single_miss_eval : compute_average_precision [0] [0] = 0 := by
  norm_num [compute_average_precision, interpolated_recall_levels, npInterpAt, lastLE,
    npMaximumAccumulate, cummaxFrom, npTrapz, List.range_succ, List.countP_cons]

set_option maxRecDepth 4000 in
set_option maxHeartbeats 1000000 in
theorem c1_table :
    average_precisions_per_class 10 (all_rows c1P c1T) (all_tcls c1P c1T)
      = [[199 / 200, 199 / 200, 199 / 200, 199 / 200, 199 / 200, 0, 0, 0, 0, 0]] := by
  rw [c1_rows, c1_tcls]
  simp only [average_precisions_per_class]
  rw [show uniqueClasses [0] = [0] from rfl]
  simp only [List.map_cons, List.map_nil]
  norm_num [sortByConfDesc, recallCurve, precisionCurve, List.range_succ,
    ap_single_hit_eval, ap_single_miss_eval]

theorem c1_all_correct :
    all_correct c1P c1T
      = [[true, true, true, true, true, false, false, false, false, false]] := by
  simp only [all_correct, stacked_stats, stats_entry, c1P, c1T]
  simp [c1_correct_row]

theorem c1_hbr : stacked_stats c1P c1T ≠ [] ∧
    (all_correct c1P c1T).any (fun r => r.any id) = true := by
  constructor
  · simp [stacked_stats, stats_entry, c1P, c1T]
  · rw [c1_all_correct]
    simp

theorem c1_result : from_tensors_map c1P c1T = ⟨199 / 400, 199 / 200, 0, [199 / 400]⟩ := by
  simp only [from_tensors_map]
  rw [if_pos c1_hbr, c1_table]
  norm_num [listMean]

/-- **C1, counterexample.**  On a non-degenerate input (one matched
detection), the `per_class_ap` field is the one-entry list of per-class
*means* over the ten IoU levels, not the `(1, 10)` per-class AP table: the
table at this input is `[[0.995 ×5, 0 ×5]]`, while `per_class_ap` is
`[199/400]` — a single scalar per class that is not even an entry of the
table, and `1 ≠ 10` entries. -/
theorem C1_counterexample :
    (from_tensors_map c1P c1T).per_class_ap = [199 / 400] ∧
      average_precisions_per_class 10 (all_rows c1P c1T) (all_tcls c1P c1T)
        = [[199 / 200, 199 / 200, 199 / 200, 199 / 200, 199 / 200, 0, 0, 0, 0, 0]] ∧
      ((from_tensors_map c1P c1T).per_class_ap).length = 1 ∧
      ∀ row ∈ average_precisions_per_class 10 (all_rows c1P c1T) (all_tcls c1P c1T),
        row.length = 10 ∧ (199 / 400 : ℚ) ∉ row := by
  refine ⟨by rw [c1_result], c1_table, by rw [c1_result]; rfl, ?_⟩
  rw [c1_table]
  intro row hrow
  rcases List.mem_cons.mp hrow with h | h
  · subst h
    refine ⟨rfl, ?_⟩
    intro hmem
    simp only [List.mem_cons, List.not_mem_nil, or_false] at hmem
    rcases hmem with h | h | h | h | h | h | h | h | h | h <;> norm_num at h
  · cases h

/-! ## Range bounds for the AP computation -/

theorem sorted_countP_le (xp : List ℚ) (x : ℚ) (hs : List.Pairwise (· ≤ ·) xp) :
    (∀ k, k < xp.countP (fun a => decide (a ≤ x)) → xp.getD k 0 ≤ x) ∧
      (∀ k, xp.countP (fun a => decide (a ≤ x)) ≤ k → k < xp.length → x < xp.getD k 0) := by
  induction xp with
  | nil => simp
  | cons a l ih =>
    have hal : ∀ b ∈ l, a ≤ b := fun b hb => List.rel_of_pairwise_cons hs hb
    have ihs := ih (List.Pairwise.of_cons hs)
    by_cases hax : a ≤ x
    · have hcp : (a :: l).countP (fun a => decide (a ≤ x))
          = l.countP (fun a => decide (a ≤ x)) + 1 := by
        rw [List.countP_cons]
        simp [hax]
      constructor
      · intro k hk
        match k with
        | 0 => simpa using hax
        | k + 1 =>
          have : k < l.countP (fun a => decide (a ≤ x)) := by omega
          simpa using ihs.1 k this
      · intro k hk hkl
        match k with
        | 0 => omega
        | k + 1 =>
          have h1 : l.countP (fun a => decide (a ≤ x)) ≤ k := by omega
          have h2 : k < l.length := by simpa using hkl
          simpa using ihs.2 k h1 h2
    · have hxa : x < a := lt_of_not_le hax
      have hl0 : l.countP (fun a => decide (a ≤ x)) = 0 := by
        rw [List.countP_eq_zero]
        intro b hb
        simp only [decide_eq_true_eq]
        exact not_le.mpr (lt_of_lt_of_le hxa (hal b hb))
      have hcp : (a :: l).countP (fun a => decide (a ≤ x)) = 0 := by
        rw [List.countP_cons, hl0]
        simp [hax]
      constructor
      · intro k hk
        omega
      · intro k _ hkl
        match k with
        | 0 => simpa using hxa
        | k + 1 =>
          have h2 : k < l.length := by simpa using hkl
          have : l.getD k 0 ∈ l := by
            rw [List.getD_eq_getElem _ _ h2]
            exact List.getElem_mem h2
          simpa using lt_of_lt_of_le hxa (hal _ this)

theorem getD_bounds_of_mem (fp : List ℚ) (hfp : ∀ v ∈ fp, 0 ≤ v ∧ v ≤ 1) (j : ℕ) :
    0 ≤ fp.getD j 0 ∧ fp.getD j 0 ≤ 1 := by
  by_cases hj : j < fp.length
  · rw [List.getD_eq_getElem _ _ hj]
    exact hfp _ (List.getElem_mem hj)
  · rw [List.getD_eq_default _ _ (le_of_not_lt hj)]
    norm_num

theorem getLastD_cases (l : List ℚ) (d : ℚ) : l.getLastD d = d ∨ l.getLastD d ∈ l := by
  induction l generalizing d with
  | nil => left; rfl
  | cons a t ih =>
    rcases ih a with h | h
    · right
      rw [List.getLastD_cons, h]
      exact List.mem_cons_self a t
    · right
      rw [List.getLastD_cons]
      exact List.mem_cons_of_mem a h

theorem headD_cases (l : List ℚ) (d : ℚ) : l.headD d = d ∨ l.headD d ∈ l := by
  rcases l with _ | ⟨a, t⟩
  · left; rfl
  · right; simp

/-- `np.interp` stays inside `[0, 1]` whenever the ordinates do and the
abscissae are sorted. -/
theorem npInterpAt_bounds (xp fp : List ℚ) (x : ℚ)
    (hs : List.Pairwise (· ≤ ·) xp) (hfp : ∀ v ∈ fp, 0 ≤ v ∧ v ≤ 1) :
    0 ≤ npInterpAt xp fp x ∧ npInterpAt xp fp x ≤ 1 := by
  have hlast : 0 ≤ fp.getLastD 0 ∧ fp.getLastD 0 ≤ 1 := by
    rcases getLastD_cases fp 0 with h | h
    · rw [h]; norm_num
    · exact hfp _ h
  have hhead : 0 ≤ fp.headD 0 ∧ fp.headD 0 ≤ 1 := by
    rcases headD_cases fp 0 with h | h
    · rw [h]; norm_num
    · exact hfp _ h
  unfold npInterpAt
  split
  · exact hlast
  split
  · exact hhead
  split
  · exact getD_bounds_of_mem fp hfp _
  split
  · exact getD_bounds_of_mem fp hfp _
  · -- the linear-interpolation branch
    rename_i hnotgt hnotlt hjne hne
    rcases xp with _ | ⟨x0, xt⟩
    · exfalso
      apply hjne
      rfl
    · set xl := x0 :: xt with hxl
      have hx0 : x0 ≤ x := by
        have : ¬ x < xl.headD 0 := hnotlt
        simpa using not_lt.mp this
      have hcp1 : 1 ≤ xl.countP (fun a => decide (a ≤ x)) := by
        have : (decide (x0 ≤ x)) = true := by simpa using hx0
        rw [List.countP_cons]
        simp [hx0]
      set j := lastLE xl x with hj
      have hjcp : j = xl.countP (fun a => decide (a ≤ x)) - 1 := rfl
      have hcple : xl.countP (fun a => decide (a ≤ x)) ≤ xl.length :=
        List.countP_le_length _
      have hjlt : j < xl.length := by omega
      have hjlt1 : j + 1 < xl.length := by
        rcases Nat.lt_or_ge (j + 1) xl.length with h | h
        · exact h
        · exfalso
          apply hjne
          omega
      have hle := sorted_countP_le xl x hs
      have hu : xl.getD j 0 ≤ x := hle.1 j (by omega)
      have hu' : xl.getD j 0 < x := lt_of_le_of_ne hu hne
      have hv : x < xl.getD (j + 1) 0 := hle.2 (j + 1) (by omega) hjlt1
      have ha := getD_bounds_of_mem fp hfp j
      have hb := getD_bounds_of_mem fp hfp (j + 1)
      set a := fp.getD j 0
      set b := fp.getD (j + 1) 0
      set u := xl.getD j 0
      set v := xl.getD (j + 1) 0
      have hvu : 0 < v - u := by linarith
      set t := (x - u) / (v - u) with ht
      have ht0 : 0 ≤ t := div_nonneg (by linarith) (le_of_lt hvu)
      have ht1 : t ≤ 1 := by
        rw [ht, div_le_one hvu]
        linarith
      have hval : a + (b - a) / (v - u) * (x - u) = a * (1 - t) + b * t := by
        rw [ht]
        field_simp
        ring
      rw [hval]
      constructor
      · nlinarith [ha.1, hb.1, ht0, ht1]
      · nlinarith [ha.2, hb.2, ht0, ht1]

/-- The trapezoid sum of points with ordinates in `[0, 1]` over non-decreasing
abscissae lies between `0` and the total abscissa span. -/
theorem npTrapz_bounds (l : List (ℚ × ℚ)) (hx : List.Chain' (fun p q => p.1 ≤ q.1) l)
    (hy : ∀ p ∈ l, 0 ≤ p.2 ∧ p.2 ≤ 1) :
    0 ≤ npTrapz l ∧ npTrapz l ≤ (l.getLastD (0, 0)).1 - (l.headD (0, 0)).1 := by
  induction l with
  | nil => simp [npTrapz]
  | cons p l ih =>
    rcases l with _ | ⟨q, rest⟩
    · simp [npTrapz]
    · have hpq : p.1 ≤ q.1 := (List.chain'_cons.mp hx).1
      have htail := ih (List.chain'_cons.mp hx).2
        (fun r hr => hy r (List.mem_cons_of_mem p hr))
      have hyp := hy p (List.mem_cons_self _ _)
      have hyq := hy q (List.mem_cons_of_mem p (List.mem_cons_self _ _))
      have hstep : npTrapz (p :: q :: rest)
          = (q.1 - p.1) * (p.2 + q.2) / 2 + npTrapz (q :: rest) := by
        rcases p with ⟨p1, p2⟩
        rcases q with ⟨q1, q2⟩
        rfl
      have hlast : ((p :: q :: rest).getLastD (0, 0)) = ((q :: rest).getLastD (0, 0)) := by
        rcases rest with _ | ⟨r, rs⟩
        · rfl
        · simp [List.getLastD_cons]
      rw [hstep, hlast]
      have h1 : 0 ≤ (q.1 - p.1) * (p.2 + q.2) / 2 := by
        have hd : (0 : ℚ) ≤ q.1 - p.1 := by linarith
        have hn : (0 : ℚ) ≤ p.2 + q.2 := by linarith [hyp.1, hyq.1]
        have := mul_nonneg hd hn
        linarith
      have h2 : (q.1 - p.1) * (p.2 + q.2) / 2 ≤ q.1 - p.1 := by
        nlinarith [hyp.2, hyq.2, hpq]
      have hhd : ((q :: rest).headD (0, 0)).1 = q.1 := rfl
      rw [hhd] at htail
      constructor
      · linarith [htail.1]
      · have : ((p :: q :: rest).headD (0, 0)).1 = p.1 := rfl
        rw [this]
        linarith [htail.2]

theorem cummaxFrom_bounds (m : ℚ) (l : List ℚ) (hm : 0 ≤ m ∧ m ≤ 1)
    (hl : ∀ v ∈ l, 0 ≤ v ∧ v ≤ 1) : ∀ v ∈ cummaxFrom m l, 0 ≤ v ∧ v ≤ 1 := by
  induction l generalizing m with
  | nil => simp [cummaxFrom]
  | cons a t ih =>
    intro v hv
    have ha := hl a (List.mem_cons_self _ _)
    have hmax : 0 ≤ max m a ∧ max m a ≤ 1 :=
      ⟨le_max_of_le_left hm.1, max_le hm.2 ha.2⟩
    rw [cummaxFrom] at hv
    rcases List.mem_cons.mp hv with h | h
    · rw [h]; exact hmax
    · exact ih (max m a) hmax (fun w hw => hl w (List.mem_cons_of_mem a hw)) v h

theorem npMaximumAccumulate_bounds (l : List ℚ) (hl : ∀ v ∈ l, 0 ≤ v ∧ v ≤ 1) :
    ∀ v ∈ npMaximumAccumulate l, 0 ≤ v ∧ v ≤ 1 := by
  rcases l with _ | ⟨a, t⟩
  · simp [npMaximumAccumulate]
  · intro v hv
    rw [npMaximumAccumulate] at hv
    rcases List.mem_cons.mp hv with h | h
    · rw [h]; exact hl a (List.mem_cons_self _ _)
    · exact cummaxFrom_bounds a t (hl a (List.mem_cons_self _ _))
        (fun w hw => hl w (List.mem_cons_of_mem a hw)) v h

theorem zip_map_self {α β : Type} (f : α → β) (l : List α) :
    l.zip (l.map f) = l.map (fun x => (x, f x)) := by
  induction l with
  | nil => rfl
  | cons a t ih => simp [ih]

theorem getLastD_map {α β : Type} (g : α → β) (l : List α) (d : β) (d' : α) :
    l ≠ [] → (l.map g).getLastD d = g (l.getLastD d') := by
  induction l generalizing d d' with
  | nil => intro h; exact absurd rfl h
  | cons a t ih =>
    intro _
    rw [List.map_cons, List.getLastD_cons, List.getLastD_cons]
    rcases t with _ | ⟨b, t'⟩
    · rfl
    · exact ih (g a) a (by simp)

theorem grid_chain : List.Chain' (· ≤ ·) interpolated_recall_levels := by
  unfold interpolated_recall_levels
  rw [List.chain'_map]
  apply (List.chain'_range_succ _ 100).mpr
  intro m _
  show (m : ℚ) / 100 ≤ ((m + 1 : ℕ) : ℚ) / 100
  have h : (m : ℚ) ≤ ((m + 1 : ℕ) : ℚ) := by
    push_cast
    linarith
  linarith

/-- The interpolated-precision integral always lands in `[0, 1]` when the
(extended) recall abscissae are non-decreasing and the precisions lie in
`[0, 1]`. -/
theorem compute_average_precision_bounds (rcl prc : List ℚ)
    (hxp : List.Pairwise (· ≤ ·) ((0 : ℚ) :: rcl ++ [1]))
    (hp : ∀ v ∈ prc, 0 ≤ v ∧ v ≤ 1) :
    0 ≤ compute_average_precision rcl prc ∧ compute_average_precision rcl prc ≤ 1 := by
  have hfp : ∀ v ∈ (npMaximumAccumulate ((1 : ℚ) :: prc ++ [0]).reverse).reverse,
      0 ≤ v ∧ v ≤ 1 := by
    intro v hv
    apply npMaximumAccumulate_bounds ((1 : ℚ) :: prc ++ [0]).reverse ?_ v
      (List.mem_reverse.mp hv)
    intro w hw
    have hw' : w ∈ (1 : ℚ) :: prc ++ [0] := List.mem_reverse.mp hw
    rcases List.mem_cons.mp hw' with h | h
    · rw [h]; norm_num
    · rcases List.mem_append.mp h with h | h
      · exact hp w h
      · rcases List.mem_singleton.mp h with rfl
        norm_num
  have hys : ∀ x, 0 ≤ npInterpAt ((0 : ℚ) :: rcl ++ [1])
        ((npMaximumAccumulate ((1 : ℚ) :: prc ++ [0]).reverse).reverse) x ∧
      npInterpAt ((0 : ℚ) :: rcl ++ [1])
        ((npMaximumAccumulate ((1 : ℚ) :: prc ++ [0]).reverse).reverse) x ≤ 1 :=
    fun x => npInterpAt_bounds _ _ x hxp hfp
  have hzip : interpolated_recall_levels.zip
        (interpolated_recall_levels.map (npInterpAt ((0 : ℚ) :: rcl ++ [1])
          ((npMaximumAccumulate ((1 : ℚ) :: prc ++ [0]).reverse).reverse)))
      = interpolated_recall_levels.map (fun x => (x, npInterpAt ((0 : ℚ) :: rcl ++ [1])
          ((npMaximumAccumulate ((1 : ℚ) :: prc ++ [0]).reverse).reverse) x)) :=
    zip_map_self _ _
  have hgridne : interpolated_recall_levels ≠ [] := by
    unfold interpolated_recall_levels
    simp [List.range_succ]
  have hbounds := npTrapz_bounds
    (interpolated_recall_levels.map (fun x => (x, npInterpAt ((0 : ℚ) :: rcl ++ [1])
      ((npMaximumAccumulate ((1 : ℚ) :: prc ++ [0]).reverse).reverse) x)))
    ?hchain ?hy
  case hchain =>
    rw [List.chain'_map]
    exact grid_chain
  case hy =>
    intro p hp'
    rcases List.mem_map.mp hp' with ⟨x, _, rfl⟩
    exact hys x
  have hgrid_last : interpolated_recall_levels.getLastD 0 = 1 := by
    unfold interpolated_recall_levels
    rw [getLastD_map (fun i : ℕ => (i : ℚ) / 100) (List.range 101) 0 0
      (by simp [List.range_succ])]
    rw [show (List.range 101).getLastD 0 = 100 by rw [List.range_succ]; simp]
    norm_num
  have hlx := getLastD_map
    (fun x : ℚ => (x, npInterpAt ((0 : ℚ) :: rcl ++ [1])
      ((npMaximumAccumulate ((1 : ℚ) :: prc ++ [0]).reverse).reverse) x))
    interpolated_recall_levels ((0 : ℚ), (0 : ℚ)) 0 hgridne
  have hlastx : ((interpolated_recall_levels.map (fun x => (x, npInterpAt ((0 : ℚ) :: rcl ++ [1])
      ((npMaximumAccumulate ((1 : ℚ) :: prc ++ [0]).reverse).reverse) x))).getLastD (0, 0)).1
      = 1 := (congrArg Prod.fst hlx).trans hgrid_last
  have hheadx : ((interpolated_recall_levels.map (fun x => (x, npInterpAt ((0 : ℚ) :: rcl ++ [1])
      ((npMaximumAccumulate ((1 : ℚ) :: prc ++ [0]).reverse).reverse) x))).headD (0, 0)).1
      = 0 := by
    unfold interpolated_recall_levels
    rw [show List.range 101 = 0 :: (List.range 100).map Nat.succ from List.range_succ_eq_map 100]
    simp
  rw [hlastx, hheadx] at hbounds
  have hcap : compute_average_precision rcl prc
      = npTrapz (interpolated_recall_levels.map (fun x => (x,
          npInterpAt ((0 : ℚ) :: rcl ++ [1])
            ((npMaximumAccumulate ((1 : ℚ) :: prc ++ [0]).reverse).reverse) x))) := by
    rw [compute_average_precision, hzip]
  rw [hcap]
  constructor
  · exact hbounds.1
  · linarith [hbounds.2]

theorem precisionCurve_bounds (valid : List StatRow) (j : ℕ) :
    ∀ v ∈ precisionCurve valid j, 0 ≤ v ∧ v ≤ 1 := by
  intro v hv
  unfold precisionCurve at hv
  rcases List.mem_map.mp hv with ⟨i, -, rfl⟩
  set k := ((valid.take (i + 1)).map (fun r => r.correct.getD j false)).count true with hk
  set k' := ((valid.take (i + 1)).map (fun r => r.correct.getD j false)).count false with hk'
  constructor
  · apply div_nonneg (by positivity) (by positivity)
  · rcases Nat.eq_zero_or_pos k with h | h
    · rw [h]
      norm_num
    · apply div_le_one_of_le
      · have : (0 : ℚ) ≤ (k' : ℚ) := by positivity
        linarith
      · positivity

/-- The cumulative true-positive count is monotone in the prefix length and
bounded by the count over the whole list. -/
theorem prefix_count_mono (valid : List StatRow) (j : ℕ) (m n : ℕ) (hmn : m ≤ n) :
    ((valid.take m).map (fun r => r.correct.getD j false)).count true
      ≤ ((valid.take n).map (fun r => r.correct.getD j false)).count true := by
  have hsub : (valid.take m).Sublist (valid.take n) := by
    rw [show valid.take m = (valid.take n).take m by rw [List.take_take, min_eq_left hmn]]
    exact List.take_sublist m (valid.take n)
  exact (hsub.map _).count_le true

theorem prefix_count_le_total (valid : List StatRow) (j : ℕ) (m : ℕ) :
    ((valid.take m).map (fun r => r.correct.getD j false)).count true
      ≤ (valid.map (fun r => r.correct.getD j false)).count true :=
  ((List.take_sublist m valid).map _).count_le true

/-- The extended recall abscissae are sorted provided the class's total
true-positive count does not exceed its target count. -/
theorem recallCurve_pairwise (valid : List StatRow) (nt : ℕ) (j : ℕ)
    (hcnt : (valid.map (fun r => r.correct.getD j false)).count true ≤ nt) :
    List.Pairwise (· ≤ ·) ((0 : ℚ) :: recallCurve valid nt j ++ [1]) := by
  have hD : (0 : ℚ) < (nt : ℚ) + 1 / 10 ^ 16 := by positivity
  have hbound : ∀ v ∈ recallCurve valid nt j, 0 ≤ v ∧ v ≤ 1 := by
    intro v hv
    unfold recallCurve at hv
    rcases List.mem_map.mp hv with ⟨i, -, rfl⟩
    constructor
    · apply div_nonneg (by positivity) (le_of_lt hD)
    · apply div_le_one_of_le ?_ (le_of_lt hD)
      have h1 : ((valid.take (i + 1)).map (fun r => r.correct.getD j false)).count true ≤ nt :=
        le_trans (prefix_count_le_total valid j (i + 1)) hcnt
      have h2 : (((valid.take (i + 1)).map
          (fun r => r.correct.getD j false)).count true : ℚ) ≤ (nt : ℚ) := by
        exact_mod_cast h1
      have : (0 : ℚ) ≤ 1 / 10 ^ 16 := by positivity
      linarith
  have hmono : Monotone (fun i => (((valid.take (i + 1)).map
      (fun r => r.correct.getD j false)).count true : ℚ) / ((nt : ℚ) + 1 / 10 ^ 16)) := by
    apply monotone_nat_of_le_succ
    intro i
    have hcq : ((((valid.take (i + 1)).map
          (fun r => r.correct.getD j false)).count true : ℕ) : ℚ)
        ≤ ((((valid.take (i + 2)).map
          (fun r => r.correct.getD j false)).count true : ℕ) : ℚ) := by
      exact_mod_cast prefix_count_mono valid j (i + 1) (i + 2) (by omega)
    exact div_le_div_of_nonneg_right hcq (le_of_lt hD)
  have hpw : (recallCurve valid nt j).Pairwise (· ≤ ·) := by
    unfold recallCurve
    apply List.Pairwise.map
    · intro a b hab
      exact hab
    · apply List.Pairwise.imp ?_ (List.pairwise_lt_range _)
      intro a b hab
      exact hmono (le_of_lt hab)
  refine List.Pairwise.cons ?_ ?_
  · intro a ha
    rcases List.mem_append.mp ha with h | h
    · exact (hbound a h).1
    · rcases List.mem_singleton.mp h with rfl
      norm_num
  · refine (List.pairwise_append).mpr ⟨hpw, List.pairwise_singleton _ _, ?_⟩
    intro a ha b hb
    rcases List.mem_singleton.mp hb with rfl
    exact (hbound a ha).2

/-! ## Per-class true positives never exceed the class's target count -/

theorem countP_flatMap_general {α β : Type} (p : β → Bool) (l : List α) (f : α → List β) :
    (l.flatMap f).countP p = (l.map (fun a => (f a).countP p)).sum := by
  induction l with
  | nil => rfl
  | cons a t ih => simp [List.flatMap_cons, List.countP_append, ih]

theorem zip3_rows_eq_range (M : List (List Bool)) (cf : List ℚ) (pc : List ℕ)
    (hc : cf.length = M.length) (hp : pc.length = M.length) :
    (M.zip (cf.zip pc)).map (fun x => (⟨x.1, x.2.1, x.2.2⟩ : StatRow))
      = (List.range M.length).map (fun p => ⟨M.getD p [], cf.getD p 0, pc.getD p 0⟩) := by
  induction M generalizing cf pc with
  | nil => simp
  | cons m Ms ih =>
    rcases cf with _ | ⟨a, cfs⟩
    · simp at hc
    rcases pc with _ | ⟨b, pcs⟩
    · simp at hp
    simp only [List.zip_cons_cons, List.map_cons, List.length_cons]
    rw [List.range_succ_eq_map, List.map_cons]
    congr 1
    rw [List.map_map, ih cfs pcs (by simpa using hc) (by simpa using hp)]
    apply List.map_congr_left
    intro p _
    rfl

theorem length_filter_range_getD {α : Type} (l : List α) (d : α) (q : α → Bool) :
    ((List.range l.length).filter (fun i => q (l.getD i d))).length = l.countP q := by
  induction l with
  | nil => simp
  | cons a t ih =>
    rw [List.length_cons, List.range_succ_eq_map, List.filter_cons, List.countP_cons]
    have hfm : (List.map Nat.succ (List.range t.length)).filter
          (fun i => q ((a :: t).getD i d))
        = List.map Nat.succ ((List.range t.length).filter (fun i => q (t.getD i d))) := by
      rw [List.filter_map]
      rfl
    by_cases hq : q a
    · rw [if_pos (show q ((a :: t).getD 0 d) = true by simpa using hq),
        if_pos (by simpa using hq)]
      rw [List.length_cons, hfm, List.length_map, ih]
    · rw [if_neg (show ¬ q ((a :: t).getD 0 d) = true by simpa using hq),
        if_neg (by simpa using hq)]
      rw [hfm, List.length_map, ih]
      omega

theorem mem_ap_matches_at (preds : List PredRow) (tgts : List TgtRow) (level : ℚ) :
    ∀ m ∈ ap_matches_at preds tgts level,
      m.tgt < tgts.length ∧ m.prd < preds.length ∧
        (tgts.getD m.tgt default).cls = (preds.getD m.prd default).cls := by
  intro m hm
  have := ap_dedup_subset _ m (by simpa [ap_matches_at] using hm)
  rw [mem_ap_candidates] at this
  refine ⟨this.1, this.2.1, ?_⟩
  have h := this.2.2.1.2
  simpa using h

/-- The greedy class-aware matching of one image marks, per class and IoU
level, at most as many predictions correct as the image has targets of that
class. -/
theorem matched_count_bound (db : List PredRow) (tb : List TgtRow) (L : ℚ) (c : ℕ) :
    ((List.range db.length).filter (fun p =>
        ((ap_matches_at db tb L).any (fun m => m.prd == p)) &&
          ((db.getD p default).cls == c))).length
      ≤ ((List.range tb.length).filter
          (fun i => (tb.getD i default).cls == c)).length := by
  set mts := ap_matches_at db tb L with hmts
  have hmem := mem_ap_matches_at db tb L
  rw [← hmts] at hmem
  have hprd_nd : (mts.map (·.prd)).Nodup := by
    rw [hmts, ap_matches_at]
    exact ap_dedup_prd_nodup _
  have htgt_nd : (mts.map (·.tgt)).Nodup := by
    rw [hmts, ap_matches_at]
    exact ap_dedup_tgt_nodup _
  set K := mts.filter (fun m => (db.getD m.prd default).cls == c) with hK
  have hKsub : K.Sublist mts := List.filter_sublist mts
  have hKtgt_nd : (K.map (·.tgt)).Nodup := (hKsub.map _).nodup htgt_nd
  have hKprd_nd : (K.map (·.prd)).Nodup := (hKsub.map _).nodup hprd_nd
  -- the filtered prediction indices inject into K
  have hstep1 : ((List.range db.length).filter (fun p =>
      ((mts.any (fun m => m.prd == p))) && ((db.getD p default).cls == c))).length
      ≤ K.length := by
    have hS_nd : ((List.range db.length).filter (fun p =>
        ((mts.any (fun m => m.prd == p))) && ((db.getD p default).cls == c))).Nodup :=
      (List.nodup_range _).filter _
    have hsubset : ∀ p ∈ (List.range db.length).filter (fun p =>
        ((mts.any (fun m => m.prd == p))) && ((db.getD p default).cls == c)),
        p ∈ K.map (·.prd) := by
      intro p hp
      rw [List.mem_filter] at hp
      have hp2 : (mts.any fun m => m.prd == p) = true ∧
          ((db.getD p default).cls == c) = true := by
        simpa using hp.2
      rcases hp2 with ⟨hany, hcls⟩
      rcases List.any_eq_true.mp hany with ⟨m, hm, hmp⟩
      have hmp' : m.prd = p := by simpa using hmp
      refine List.mem_map.mpr ⟨m, ?_, hmp'⟩
      rw [hK, List.mem_filter]
      refine ⟨hm, ?_⟩
      rw [hmp']
      exact hcls
    have := (List.subperm_of_subset hS_nd hsubset).length_le
    rwa [List.length_map] at this
  -- K injects into the class-c target indices
  have hstep2 : K.length ≤ ((List.range tb.length).filter
      (fun i => (tb.getD i default).cls == c)).length := by
    have hsubset : ∀ i ∈ K.map (·.tgt),
        i ∈ (List.range tb.length).filter (fun i => (tb.getD i default).cls == c) := by
      intro i hi
      rcases List.mem_map.mp hi with ⟨m, hmK, rfl⟩
      have hmmts : m ∈ mts := List.mem_of_mem_filter hmK
      have hmf := hmem m hmmts
      rw [List.mem_filter, List.mem_range]
      refine ⟨hmf.1, ?_⟩
      rw [hK, List.mem_filter] at hmK
      have hcls : (db.getD m.prd default).cls == c := hmK.2
      rw [hmf.2.2]
      exact hcls
    have := (List.subperm_of_subset hKtgt_nd hsubset).length_le
    rwa [List.length_map] at this
  exact le_trans hstep1 hstep2

theorem match_detection_batch_length (db : List PredRow) (tb : List TgtRow) :
    (match_detection_batch db tb).length = db.length := by
  unfold match_detection_batch
  rw [List.length_map, List.length_range]

theorem iou_levels_length : iou_levels.length = 10 := by
  unfold iou_levels
  rw [List.length_map, List.length_range]

/-- Per image: at every IoU column, the predictions of class `c` marked
correct number at most the image's class-`c` targets. -/
theorem image_count_bound (db : List PredRow) (tb : List TgtRow) (c j : ℕ)
    (hj : j < 10) :
    ((List.range (match_detection_batch db tb).length).map (fun p =>
        (⟨(match_detection_batch db tb).getD p [], (db.map (·.conf)).getD p 0,
          (db.map (·.cls)).getD p 0⟩ : StatRow))).countP
      (fun r => (r.correct.getD j false == true) && (r.pcl == c))
      ≤ (tb.map (·.cls)).countP (fun x => x == c) := by
  rw [List.countP_map, match_detection_batch_length]
  have hcong : (List.range db.length).countP
      ((fun (r : StatRow) => (r.correct.getD j false == true) && (r.pcl == c)) ∘ (fun p =>
        (⟨(match_detection_batch db tb).getD p [], (db.map (·.conf)).getD p 0,
          (db.map (·.cls)).getD p 0⟩ : StatRow)))
      = (List.range db.length).countP (fun p =>
        ((ap_matches_at db tb (iou_levels.getD j 0)).any (fun m => m.prd == p)) &&
          ((db.getD p default).cls == c)) := by
    apply List.countP_congr
    intro p hp
    have hplt : p < db.length := List.mem_range.mp hp
    have hM : (match_detection_batch db tb).getD p []
        = iou_levels.map (fun level =>
            (ap_matches_at db tb level).any (fun m => m.prd == p)) := by
      rw [List.getD_eq_getElem _ _ (by rw [match_detection_batch_length]; exact hplt)]
      unfold match_detection_batch
      rw [List.getElem_map, List.getElem_range]
    have hrowj : (iou_levels.map (fun level =>
          (ap_matches_at db tb level).any (fun m => m.prd == p))).getD j false
        = (ap_matches_at db tb (iou_levels.getD j 0)).any (fun m => m.prd == p) := by
      rw [List.getD_eq_getElem _ _ (by rw [List.length_map, iou_levels_length]; exact hj),
        List.getElem_map, List.getD_eq_getElem _ _ (by rw [iou_levels_length]; exact hj)]
    have hcls : (db.map (·.cls)).getD p 0 = (db.getD p default).cls := by
      rw [List.getD_eq_getElem _ _ (by rw [List.length_map]; exact hplt),
        List.getElem_map, List.getD_eq_getElem _ _ hplt]
    simp only [Function.comp_apply, hM, hrowj, hcls]
    simp
  rw [hcong]
  have hlhs : (List.range db.length).countP (fun p =>
      ((ap_matches_at db tb (iou_levels.getD j 0)).any (fun m => m.prd == p)) &&
        ((db.getD p default).cls == c))
      = ((List.range db.length).filter (fun p =>
        ((ap_matches_at db tb (iou_levels.getD j 0)).any (fun m => m.prd == p)) &&
          ((db.getD p default).cls == c))).length :=
    List.countP_eq_length_filter _ _
  have hrhs : (tb.map (·.cls)).countP (fun x => x == c) = tb.countP (fun t => t.cls == c) := by
    rw [List.countP_map]
    rfl
  rw [hlhs, hrhs, ← length_filter_range_getD tb default (fun t => t.cls == c)]
  exact matched_count_bound db tb (iou_levels.getD j 0) c

/-- Across the whole dataset: the stacked class-`c` true positives at any
IoU column are at most the stacked class-`c` target count. -/
theorem stacked_count_bound (P : List (List PredRow)) (T : List (List TgtRow))
    (c j : ℕ) (hj : j < 10) :
    (((all_rows P T).filter (fun r => r.pcl == c)).map
        (fun r => r.correct.getD j false)).count true ≤ (all_tcls P T).count c := by
  have hconv : (((all_rows P T).filter (fun r => r.pcl == c)).map
      (fun r => r.correct.getD j false)).count true
      = (all_rows P T).countP
          (fun r => (r.correct.getD j false == true) && (r.pcl == c)) := by
    rw [List.count_eq_countP, List.countP_map, List.countP_filter]
    rfl
  rw [hconv, List.count_eq_countP]
  unfold all_rows all_tcls
  rw [countP_flatMap_general, countP_flatMap_general]
  apply List.sum_le_sum
  intro e he
  rcases List.mem_filterMap.mp he with ⟨tp, -, hse⟩
  unfold stats_entry at hse
  split at hse
  · split at hse
    · cases hse
      simp [entry_rows]
    · cases hse
  · split at hse
    · cases hse
      unfold entry_rows
      rw [zip3_rows_eq_range _ _ _
        (by rw [List.length_map, match_detection_batch_length])
        (by rw [List.length_map, match_detection_batch_length])]
      exact image_count_bound tp.2 tp.1 c j hj
    · cases hse

/-- Every row of the per-class AP table has `ncols` entries, all in `[0, 1]`,
provided the per-class true positives never exceed the class target counts. -/
theorem average_precisions_row_bounds (ncols : ℕ) (rows : List StatRow) (tcls : List ℕ)
    (hcnt : ∀ c, ∀ j < ncols, ((rows.filter (fun r => r.pcl == c)).map
        (fun r => r.correct.getD j false)).count true ≤ tcls.count c) :
    ∀ row ∈ average_precisions_per_class ncols rows tcls,
      row.length = ncols ∧ ∀ v ∈ row, 0 ≤ v ∧ v ≤ 1 := by
  intro row hrow
  unfold average_precisions_per_class at hrow
  rcases List.mem_map.mp hrow with ⟨c, hc, hrow⟩
  rw [← hrow]
  dsimp only
  split
  · refine ⟨List.length_replicate _ _, ?_⟩
    intro v hv
    rcases List.eq_of_mem_replicate hv with rfl
    norm_num
  · constructor
    · rw [List.length_map, List.length_range]
    · intro v hv
      rcases List.mem_map.mp hv with ⟨j, hj, rfl⟩
      have hjlt : j < ncols := List.mem_range.mp hj
      apply compute_average_precision_bounds
      · apply recallCurve_pairwise
        have hperm : List.Perm ((sortByConfDesc rows).filter (fun r => r.pcl == c))
            (rows.filter (fun r => r.pcl == c)) :=
          (List.perm_insertionSort _ rows).filter _
        have := (hperm.map (fun r => r.correct.getD j false)).count_eq true
        rw [this]
        exact hcnt c j hjlt
      · exact precisionCurve_bounds _ j

theorem sum_map_one (l : List ℚ) : (l.map (fun _ => (1 : ℚ))).sum = (l.length : ℚ) := by
  induction l with
  | nil => simp
  | cons a t ih => simp [ih]; ring

theorem listMean_bounds (l : List ℚ) (h : ∀ v ∈ l, 0 ≤ v ∧ v ≤ 1) :
    0 ≤ listMean l ∧ listMean l ≤ 1 := by
  unfold listMean
  rcases l with _ | ⟨a, t⟩
  · norm_num
  · have h0 : 0 ≤ (a :: t).sum := List.sum_nonneg (fun v hv => (h v hv).1)
    have h1 : (a :: t).sum ≤ ((a :: t).length : ℚ) := by
      calc (a :: t).sum = ((a :: t).map id).sum := by rw [List.map_id]
        _ ≤ ((a :: t).map (fun _ => (1 : ℚ))).sum :=
            List.sum_le_sum (fun v hv => (h v hv).2)
        _ = ((a :: t).length : ℚ) := sum_map_one (a :: t)
    have hlen : (0 : ℚ) < ((a :: t).length : ℚ) := by
      rw [List.length_cons]
      positivity
    constructor
    · exact div_nonneg h0 (le_of_lt hlen)
    · exact div_le_one_of_le h1 (le_of_lt hlen)

theorem uniqueClasses_sorted (tcls : List ℕ) :
    List.Sorted (· ≤ ·) (uniqueClasses tcls) := by
  unfold uniqueClasses
  exact List.sorted_insertionSort _ _

theorem uniqueClasses_nodup (tcls : List ℕ) : (uniqueClasses tcls).Nodup :=
  nodup_sorted_keys tcls

theorem mem_uniqueClasses_iff (tcls : List ℕ) (c : ℕ) :
    c ∈ uniqueClasses tcls ↔ c ∈ tcls := by
  unfold uniqueClasses
  rw [(List.perm_insertionSort _ _).mem_iff, List.mem_dedup]

/-- **C1, amended.**  For every non-degenerate input (at least one correct
match), `per_class_ap` is the *one-dimensional* vector of per-class means
over the ten IoU levels of the internal per-class AP table: the table has
one 10-entry row per class id observed among targets — listed in ascending
order without duplicates — with all entries in `[0, 1]`, and `per_class_ap`
is its row-mean vector (entries likewise in `[0, 1]`). -/
theorem C1_per_class_ap_shape (predictions : List (List PredRow))
    (targets : List (List TgtRow))
    (hbr : stacked_stats predictions targets ≠ [] ∧
      (all_correct predictions targets).any (fun r => r.any id) = true) :
    (from_tensors_map predictions targets).per_class_ap
        = (average_precisions_per_class 10 (all_rows predictions targets)
            (all_tcls predictions targets)).map listMean ∧
      (average_precisions_per_class 10 (all_rows predictions targets)
          (all_tcls predictions targets)).length
        = (uniqueClasses (all_tcls predictions targets)).length ∧
      List.Sorted (· ≤ ·) (uniqueClasses (all_tcls predictions targets)) ∧
      (uniqueClasses (all_tcls predictions targets)).Nodup ∧
      (∀ c, c ∈ uniqueClasses (all_tcls predictions targets) ↔
        c ∈ all_tcls predictions targets) ∧
      (∀ row ∈ average_precisions_per_class 10 (all_rows predictions targets)
          (all_tcls predictions targets), row.length = 10 ∧ ∀ v ∈ row, 0 ≤ v ∧ v ≤ 1) ∧
      (∀ v ∈ (from_tensors_map predictions targets).per_class_ap, 0 ≤ v ∧ v ≤ 1) := by
  have hrows := average_precisions_row_bounds 10 (all_rows predictions targets)
    (all_tcls predictions targets)
    (fun c j hj => stacked_count_bound predictions targets c j hj)
  have hfield : (from_tensors_map predictions targets).per_class_ap
      = (average_precisions_per_class 10 (all_rows predictions targets)
          (all_tcls predictions targets)).map listMean := by
    unfold from_tensors_map
    rw [if_pos hbr]
  refine ⟨hfield, ?_, uniqueClasses_sorted _, uniqueClasses_nodup _,
    fun c => mem_uniqueClasses_iff _ c, hrows, ?_⟩
  · unfold average_precisions_per_class
    simp
  · intro v hv
    rw [hfield] at hv
    rcases List.mem_map.mp hv with ⟨row, hrow, rfl⟩
    exact listMean_bounds row (hrows row hrow).2

/-! ## C7: order-dependence of the two matching pipelines

The AP-path deduplication sorts by IoU descending, dedups by prediction
index and then dedups by target index *without re-sorting in between*; the
row order after the prediction dedup is ascending prediction index, so the
target dedup keeps the candidate with the *lowest prediction index* rather
than the best IoU.  Permuting the predictions therefore changes which
prediction is marked correct.  The confusion-matrix path re-sorts between
the two passes and is order-independent as long as no two candidate pairs
share an IoU value. -/

/-- C7 AP-side prediction: IoU `3/5` with the target, confidence `9/10`. -/
def c7a1 : PredRow := ⟨⟨0, 0, 10, 6⟩, 0, 9 / 10⟩

/-- C7 AP-side prediction: IoU `9/10` with the target, confidence `8/10`. -/
def c7a2 : PredRow := ⟨⟨0, 0, 10, 9⟩, 0, 8 / 10⟩

/-- C7 target: one class-0 box. -/
def c7t : TgtRow := ⟨⟨0, 0, 10, 10⟩, 0⟩

theorem c7a_iou0 : iouOf [c7t] [c7a1, c7a2] 0 0 = 3 / 5 := by
  norm_num [iouOf, box_iou, c7t, c7a1, c7a2]

theorem c7a_iou1 : iouOf [c7t] [c7a1, c7a2] 0 1 = 9 / 10 := by
  norm_num [iouOf, box_iou, c7t, c7a1, c7a2]

theorem c7b_iou0 : iouOf [c7t] [c7a2, c7a1] 0 0 = 9 / 10 := by
  norm_num [iouOf, box_iou, c7t, c7a1, c7a2]

theorem c7b_iou1 : iouOf [c7t] [c7a2, c7a1] 0 1 = 3 / 5 := by
  norm_num [iouOf, box_iou, c7t, c7a1, c7a2]

theorem c7a_cand_lo (level : ℚ) (h : level ≤ 3 / 5) :
    ap_candidates (iouOf [c7t] [c7a1, c7a2])
      (fun i => (([c7t] : List TgtRow).getD i default).cls)
      (fun j => (([c7a1, c7a2] : List PredRow).getD j default).cls)
      1 2 level = [⟨0, 0, 3 / 5⟩, ⟨0, 1, 9 / 10⟩] := by
  rw [ap_candidates, show List.range 1 = [0] from rfl, show List.range 2 = [0, 1] from rfl]
  simp only [List.flatMap_cons, List.flatMap_nil, List.filterMap_cons, List.filterMap_nil,
    List.append_nil]
  rw [c7a_iou0, c7a_iou1, if_pos ⟨h, rfl⟩, if_pos ⟨by linarith, rfl⟩]

theorem c7a_cand_mid (level : ℚ) (h1 : ¬level ≤ 3 / 5) (h2 : level ≤ 9 / 10) :
    ap_candidates (iouOf [c7t] [c7a1, c7a2])
      (fun i => (([c7t] : List TgtRow).getD i default).cls)
      (fun j => (([c7a1, c7a2] : List PredRow).getD j default).cls)
      1 2 level = [⟨0, 1, 9 / 10⟩] := by
  rw [ap_candidates, show List.range 1 = [0] from rfl, show List.range 2 = [0, 1] from rfl]
  simp only [List.flatMap_cons, List.flatMap_nil, List.filterMap_cons, List.filterMap_nil,
    List.append_nil]
  rw [c7a_iou0, c7a_iou1, if_neg (fun hc => h1 hc.1), if_pos ⟨h2, rfl⟩]

theorem c7a_cand_hi (level : ℚ) (h : ¬level ≤ 9 / 10) :
    ap_candidates (iouOf [c7t] [c7a1, c7a2])
      (fun i => (([c7t] : List TgtRow).getD i default).cls)
      (fun j => (([c7a1, c7a2] : List PredRow).getD j default).cls)
      1 2 level = [] := by
  rw [ap_candidates, show List.range 1 = [0] from rfl, show List.range 2 = [0, 1] from rfl]
  simp only [List.flatMap_cons, List.flatMap_nil, List.filterMap_cons, List.filterMap_nil,
    List.append_nil]
  rw [c7a_iou0, c7a_iou1, if_neg (fun hc => h (by linarith [hc.1])), if_neg (fun hc => h hc.1)]

theorem c7b_cand_lo (level : ℚ) (h : level ≤ 3 / 5) :
    ap_candidates (iouOf [c7t] [c7a2, c7a1])
      (fun i => (([c7t] : List TgtRow).getD i default).cls)
      (fun j => (([c7a2, c7a1] : List PredRow).getD j default).cls)
      1 2 level = [⟨0, 0, 9 / 10⟩, ⟨0, 1, 3 / 5⟩] := by
  rw [ap_candidates, show List.range 1 = [0] from rfl, show List.range 2 = [0, 1] from rfl]
  simp only [List.flatMap_cons, List.flatMap_nil, List.filterMap_cons, List.filterMap_nil,
    List.append_nil]
  rw [c7b_iou0, c7b_iou1, if_pos ⟨by linarith, rfl⟩, if_pos ⟨h, rfl⟩]

theorem c7b_cand_mid (level : ℚ) (h1 : ¬level ≤ 3 / 5) (h2 : level ≤ 9 / 10) :
    ap_candidates (iouOf [c7t] [c7a2, c7a1])
      (fun i => (([c7t] : List TgtRow).getD i default).cls)
      (fun j => (([c7a2, c7a1] : List PredRow).getD j default).cls)
      1 2 level = [⟨0, 0, 9 / 10⟩] := by
  rw [ap_candidates, show List.range 1 = [0] from rfl, show List.range 2 = [0, 1] from rfl]
  simp only [List.flatMap_cons, List.flatMap_nil, List.filterMap_cons, List.filterMap_nil,
    List.append_nil]
  rw [c7b_iou0, c7b_iou1, if_pos ⟨h2, rfl⟩, if_neg (fun hc => h1 hc.1)]

theorem c7b_cand_hi (level : ℚ) (h : ¬level ≤ 9 / 10) :
    ap_candidates (iouOf [c7t] [c7a2, c7a1])
      (fun i => (([c7t] : List TgtRow).getD i default).cls)
      (fun j => (([c7a2, c7a1] : List PredRow).getD j default).cls)
      1 2 level = [] := by
  rw [ap_candidates, show List.range 1 = [0] from rfl, show List.range 2 = [0, 1] from rfl]
  simp only [List.flatMap_cons, List.flatMap_nil, List.filterMap_cons, List.filterMap_nil,
    List.append_nil]
  rw [c7b_iou0, c7b_iou1, if_neg (fun hc => h hc.1), if_neg (fun hc => h (by linarith [hc.1]))]

theorem c7a_match_lo (level : ℚ) (h : level ≤ 3 / 5) :
    ap_matches_at [c7a1, c7a2] [c7t] level = [⟨0, 0, 3 / 5⟩] := by
  rw [ap_matches_at, show ([c7t] : List TgtRow).length = 1 from rfl,
    show ([c7a1, c7a2] : List PredRow).length = 2 from rfl,
    c7a_cand_lo level h, ap_dedup]
  norm_num [sortByIouDesc, uniqueByKey, List.insertionSort, List.orderedInsert, List.dedup,
    List.find?, List.filterMap, Option.bind, Option.any]

theorem c7a_match_mid (level : ℚ) (h1 : ¬level ≤ 3 / 5) (h2 : level ≤ 9 / 10) :
    ap_matches_at [c7a1, c7a2] [c7t] level = [⟨0, 1, 9 / 10⟩] := by
  rw [ap_matches_at, show ([c7t] : List TgtRow).length = 1 from rfl,
    show ([c7a1, c7a2] : List PredRow).length = 2 from rfl,
    c7a_cand_mid level h1 h2, ap_dedup]
  norm_num

theorem c7a_match_hi (level : ℚ) (h : ¬level ≤ 9 / 10) :
    ap_matches_at [c7a1, c7a2] [c7t] level = [] := by
  rw [ap_matches_at, show ([c7t] : List TgtRow).length = 1 from rfl,
    show ([c7a1, c7a2] : List PredRow).length = 2 from rfl,
    c7a_cand_hi level h, ap_dedup]
  norm_num

theorem c7b_match_lo (level : ℚ) (h : level ≤ 3 / 5) :
    ap_matches_at [c7a2, c7a1] [c7t] level = [⟨0, 0, 9 / 10⟩] := by
  rw [ap_matches_at, show ([c7t] : List TgtRow).length = 1 from rfl,
    show ([c7a2, c7a1] : List PredRow).length = 2 from rfl,
    c7b_cand_lo level h, ap_dedup]
  norm_num [sortByIouDesc, uniqueByKey, List.insertionSort, List.orderedInsert, List.dedup,
    List.find?, List.filterMap, Option.bind, Option.any]

theorem c7b_match_mid (level : ℚ) (h1 : ¬level ≤ 3 / 5) (h2 : level ≤ 9 / 10) :
    ap_matches_at [c7a2, c7a1] [c7t] level = [⟨0, 0, 9 / 10⟩] := by
  rw [ap_matches_at, show ([c7t] : List TgtRow).length = 1 from rfl,
    show ([c7a2, c7a1] : List PredRow).length = 2 from rfl,
    c7b_cand_mid level h1 h2, ap_dedup]
  norm_num

theorem c7b_match_hi (level : ℚ) (h : ¬level ≤ 9 / 10) :
    ap_matches_at [c7a2, c7a1] [c7t] level = [] := by
  rw [ap_matches_at, show ([c7t] : List TgtRow).length = 1 from rfl,
    show ([c7a2, c7a1] : List PredRow).length = 2 from rfl,
    c7b_cand_hi level h, ap_dedup]
  norm_num

theorem c7a_correct :
    match_detection_batch [c7a1, c7a2] [c7t]
      = [[true, true, true, false, false, false, false, false, false, false],
         [false, false, false, true, true, true, true, true, true, false]] := by
  rw [match_detection_batch, show ([c7a1, c7a2] : List PredRow).length = 2 from rfl,
    show List.range 2 = [0, 1] from rfl]
  simp only [List.map_cons, List.map_nil]
  rw [iou_levels_eval]
  simp only [List.map_cons, List.map_nil]
  rw [c7a_match_lo (1 / 2) (by norm_num), c7a_match_lo (11 / 20) (by norm_num),
    c7a_match_lo (3 / 5) (by norm_num), c7a_match_mid (13 / 20) (by norm_num) (by norm_num),
    c7a_match_mid (7 / 10) (by norm_num) (by norm_num),
    c7a_match_mid (3 / 4) (by norm_num) (by norm_num),
    c7a_match_mid (4 / 5) (by norm_num) (by norm_num),
    c7a_match_mid (17 / 20) (by norm_num) (by norm_num),
    c7a_match_mid (9 / 10) (by norm_num) (by norm_num),
    c7a_match_hi (19 / 20) (by norm_num)]
  simp

theorem c7b_correct :
    match_detection_batch [c7a2, c7a1] [c7t]
      = [[true, true, true, true, true, true, true, true, true, false],
         [false, false, false, false, false, false, false, false, false, false]] := by
  rw [match_detection_batch, show ([c7a2, c7a1] : List PredRow).length = 2 from rfl,
    show List.range 2 = [0, 1] from rfl]
  simp only [List.map_cons, List.map_nil]
  rw [iou_levels_eval]
  simp only [List.map_cons, List.map_nil]
  rw [c7b_match_lo (1 / 2) (by norm_num), c7b_match_lo (11 / 20) (by norm_num),
    c7b_match_lo (3 / 5) (by norm_num), c7b_match_mid (13 / 20) (by norm_num) (by norm_num),
    c7b_match_mid (7 / 10) (by norm_num) (by norm_num),
    c7b_match_mid (3 / 4) (by norm_num) (by norm_num),
    c7b_match_mid (4 / 5) (by norm_num) (by norm_num),
    c7b_match_mid (17 / 20) (by norm_num) (by norm_num),
    c7b_match_mid (9 / 10) (by norm_num) (by norm_num),
    c7b_match_hi (19 / 20) (by norm_num)]
  simp

theorem c7a_rows :
    all_rows [[c7a1, c7a2]] [[c7t]]
      = [⟨[true, true, true, false, false, false, false, false, false, false], 9 / 10, 0⟩,
         ⟨[false, false, false, true, true, true, true, true, true, false], 8 / 10, 0⟩] := by
  have h := c7a_correct
  simp only [c7a1, c7a2, c7t] at h
  simp only [all_rows, entry_rows, stacked_stats, stats_entry]
  simp [h, entry_rows, c7a1, c7a2, c7t]

theorem c7b_rows :
    all_rows [[c7a2, c7a1]] [[c7t]]
      = [⟨[true, true, true, true, true, true, true, true, true, false], 8 / 10, 0⟩,
         ⟨[false, false, false, false, false, false, false, false, false, false], 9 / 10, 0⟩] := by
  have h := c7b_correct
  simp only [c7a1, c7a2, c7t] at h
  simp only [all_rows, entry_rows, stacked_stats, stats_entry]
  simp [h, entry_rows, c7a1, c7a2, c7t]

theorem c7a_tcls : all_tcls [[c7a1, c7a2]] [[c7t]] = [0] := by
  simp [all_tcls, stacked_stats, stats_entry, c7t]

theorem c7b_tcls : all_tcls [[c7a2, c7a1]] [[c7t]] = [0] := by
  simp [all_tcls, stacked_stats, stats_entry, c7t]

set_option maxRecDepth 4000 in
set_option maxHeartbeats 2000000 in
/-- AP of the two-point curve hit-then-miss: recall stays at
`10^16/(10^16+1)`, precision drops from `1` to `1/2`. -/
theorem ap_hit_miss_eval :
    compute_average_precision
      [(10000000000000000 : ℚ) / 10000000000000001,
       (10000000000000000 : ℚ) / 10000000000000001] [1, 1 / 2] = 199 / 200 := by
  norm_num [compute_average_precision, interpolated_recall_levels, npInterpAt, lastLE,
    npMaximumAccumulate, cummaxFrom, npTrapz, List.range_succ, List.countP_cons]

set_option maxRecDepth 4000 in
set_option maxHeartbeats 2000000 in
/-- AP of the two-point curve miss-then-hit: recall `0` then
`10^16/(10^16+1)`, precision `0` then `1/2`. -/
theorem ap_miss_hit_eval :
    compute_average_precision
      [0, (10000000000000000 : ℚ) / 10000000000000001] [0, 1 / 2] = 199 / 400 := by
  norm_num [compute_average_precision, interpolated_recall_levels, npInterpAt, lastLE,
    npMaximumAccumulate, cummaxFrom, npTrapz, List.range_succ, List.countP_cons]

set_option maxRecDepth 4000 in
set_option maxHeartbeats 2000000 in
/-- AP of the two-point all-miss curve. -/
theorem ap_miss_miss_eval : compute_average_precision [0, 0] [0, 0] = 0 := by
  norm_num [compute_average_precision, interpolated_recall_levels, npInterpAt, lastLE,
    npMaximumAccumulate, cummaxFrom, npTrapz, List.range_succ, List.countP_cons]

set_option maxRecDepth 4000 in
set_option maxHeartbeats 1000000 in
theorem c7a_table :
    average_precisions_per_class 10 (all_rows [[c7a1, c7a2]] [[c7t]])
        (all_tcls [[c7a1, c7a2]] [[c7t]])
      = [[199 / 200, 199 / 200, 199 / 200, 199 / 400, 199 / 400, 199 / 400, 199 / 400,
          199 / 400, 199 / 400, 0]] := by
  rw [c7a_rows, c7a_tcls]
  simp only [average_precisions_per_class]
  rw [show uniqueClasses [0] = [0] from rfl]
  simp only [List.map_cons, List.map_nil]
  norm_num [sortByConfDesc, List.insertionSort, List.orderedInsert, recallCurve,
    precisionCurve, List.range_succ, ap_hit_miss_eval, ap_miss_hit_eval, ap_miss_miss_eval]

set_option maxRecDepth 4000 in
set_option maxHeartbeats 1000000 in
theorem c7b_table :
    average_precisions_per_class 10 (all_rows [[c7a2, c7a1]] [[c7t]])
        (all_tcls [[c7a2, c7a1]] [[c7t]])
      = [[199 / 400, 199 / 400, 199 / 400, 199 / 400, 199 / 400, 199 / 400, 199 / 400,
          199 / 400, 199 / 400, 0]] := by
  rw [c7b_rows, c7b_tcls]
  simp only [average_precisions_per_class]
  rw [show uniqueClasses [0] = [0] from rfl]
  simp only [List.map_cons, List.map_nil]
  norm_num [sortByConfDesc, List.insertionSort, List.orderedInsert, recallCurve,
    precisionCurve, List.range_succ, ap_miss_hit_eval, ap_miss_miss_eval]

theorem c7a_hbr : stacked_stats [[c7a1, c7a2]] [[c7t]] ≠ [] ∧
    (all_correct [[c7a1, c7a2]] [[c7t]]).any (fun r => r.any id) = true := by
  have h := c7a_correct
  simp only [c7a1, c7a2, c7t] at h
  constructor
  · simp [stacked_stats, stats_entry]
  · simp only [all_correct, stacked_stats, stats_entry]
    simp [h, c7a1, c7a2, c7t]

theorem c7b_hbr : stacked_stats [[c7a2, c7a1]] [[c7t]] ≠ [] ∧
    (all_correct [[c7a2, c7a1]] [[c7t]]).any (fun r => r.any id) = true := by
  have h := c7b_correct
  simp only [c7a1, c7a2, c7t] at h
  constructor
  · simp [stacked_stats, stats_entry]
  · simp only [all_correct, stacked_stats, stats_entry]
    simp [h, c7a1, c7a2, c7t]

theorem c7a_result :
    from_tensors_map [[c7a1, c7a2]] [[c7t]]
      = ⟨597 / 1000, 199 / 200, 199 / 400, [597 / 1000]⟩ := by
  simp only [from_tensors_map]
  rw [if_pos c7a_hbr, c7a_table]
  norm_num [listMean]

theorem c7b_result :
    from_tensors_map [[c7a2, c7a1]] [[c7t]]
      = ⟨1791 / 4000, 199 / 400, 199 / 400, [1791 / 4000]⟩ := by
  simp only [from_tensors_map]
  rw [if_pos c7b_hbr, c7b_table]
  norm_num [listMean]

/-- C7 confusion-matrix-side prediction: class 0, same box as the target. -/
def c7r0 : PredRow := ⟨⟨0, 0, 1, 1⟩, 0, 9 / 10⟩

/-- C7 confusion-matrix-side prediction: class 1, same box as the target
(hence the same IoU — a tie). -/
def c7r1 : PredRow := ⟨⟨0, 0, 1, 1⟩, 1, 9 / 10⟩

/-- C7 confusion-matrix-side target list: one class-0 box. -/
def c7cmT : List TgtRow := [⟨⟨0, 0, 1, 1⟩, 0⟩]

theorem c7cm_surv_orig : surviving [c7r0, c7r1] (1 / 4) = [c7r0, c7r1] := by
  norm_num [surviving, List.filter, c7r0, c7r1]

theorem c7cm_surv_perm : surviving [c7r1, c7r0] (1 / 4) = [c7r1, c7r0] := by
  norm_num [surviving, List.filter, c7r0, c7r1]

theorem c7cm_cands_orig :
    cm_candidates (iouOf c7cmT [c7r0, c7r1]) 1 2 (1 / 2)
      = [⟨0, 0, 1⟩, ⟨0, 1, 1⟩] := by
  rw [cm_candidates, show List.range 1 = [0] from rfl, show List.range 2 = [0, 1] from rfl]
  simp only [List.flatMap_cons, List.flatMap_nil, List.filterMap_cons, List.filterMap_nil,
    List.append_nil]
  norm_num [iouOf, box_iou, c7r0, c7r1, c7cmT]

theorem c7cm_cands_perm :
    cm_candidates (iouOf c7cmT [c7r1, c7r0]) 1 2 (1 / 2)
      = [⟨0, 0, 1⟩, ⟨0, 1, 1⟩] := by
  rw [cm_candidates, show List.range 1 = [0] from rfl, show List.range 2 = [0, 1] from rfl]
  simp only [List.flatMap_cons, List.flatMap_nil, List.filterMap_cons, List.filterMap_nil,
    List.append_nil]
  norm_num [iouOf, box_iou, c7r0, c7r1, c7cmT]

theorem c7cm_dedup :
    drop_extra_matches [⟨0, 0, 1⟩, ⟨0, 1, 1⟩] = [⟨0, 1, 1⟩] := by
  rw [drop_extra_matches, if_neg (by simp)]
  norm_num [sortByIouDesc, uniqueByKey, List.insertionSort, List.orderedInsert, List.dedup,
    List.find?, List.filterMap, Option.bind, Option.any]

theorem c7cm_mts_orig : cm_matches [c7r0, c7r1] c7cmT (1 / 4) (1 / 2) = [⟨0, 1, 1⟩] := by
  rw [cm_matches, c7cm_surv_orig, show (c7cmT : List TgtRow).length = 1 from rfl,
    show ([c7r0, c7r1] : List PredRow).length = 2 from rfl, c7cm_cands_orig, c7cm_dedup]

theorem c7cm_mts_perm : cm_matches [c7r1, c7r0] c7cmT (1 / 4) (1 / 2) = [⟨0, 1, 1⟩] := by
  rw [cm_matches, c7cm_surv_perm, show (c7cmT : List TgtRow).length = 1 from rfl,
    show ([c7r1, c7r0] : List PredRow).length = 2 from rfl, c7cm_cands_perm, c7cm_dedup]

theorem c7cm_eval_orig :
    evaluate_detection_batch [c7r0, c7r1] c7cmT 2 (1 / 4) (1 / 2) 0 0 = 0 := by
  rw [evaluate_detection_batch]
  simp only [c7cm_surv_orig, c7cm_mts_orig]
  norm_num [targetCell, predCell, bump, List.enum, List.enumFrom, List.filter, List.find?,
    c7r0, c7r1, c7cmT]

theorem c7cm_eval_perm :
    evaluate_detection_batch [c7r1, c7r0] c7cmT 2 (1 / 4) (1 / 2) 0 0 = 1 := by
  rw [evaluate_detection_batch]
  simp only [c7cm_surv_perm, c7cm_mts_perm]
  norm_num [targetCell, predCell, bump, List.enum, List.enumFrom, List.filter, List.find?,
    c7r0, c7r1, c7cmT]

/-- **C7, counterexample.**  Order-independence fails on both paths.  AP
side: with one class-0 target and two class-0 predictions of pairwise
distinct IoUs (0.6 and 0.9) and pairwise distinct confidences, swapping the
two prediction rows changes `map50` from 0.995 to 0.4975 — the AP-path
dedup does not re-sort by IoU between its two `np.unique` passes, so the
target keeps the candidate with the lower prediction index instead of the
better IoU.  Confusion-matrix side: with two predictions of different
classes but identical boxes (an IoU tie), swapping the rows moves the
matched detection, changing cell `(0, 0)` of the confusion matrix from 0
to 1. -/
theorem C7_counterexample :
    List.Perm [c7a2, c7a1] [c7a1, c7a2] ∧
      (from_tensors_map [[c7a1, c7a2]] [[c7t]]).map50 = 199 / 200 ∧
      (from_tensors_map [[c7a2, c7a1]] [[c7t]]).map50 = 199 / 400 ∧
      (199 / 200 : ℚ) ≠ 199 / 400 ∧
      List.Perm [c7r1, c7r0] [c7r0, c7r1] ∧
      evaluate_detection_batch [c7r0, c7r1] c7cmT 2 (1 / 4) (1 / 2) 0 0 = 0 ∧
      evaluate_detection_batch [c7r1, c7r0] c7cmT 2 (1 / 4) (1 / 2) 0 0 = 1 := by
  refine ⟨List.Perm.swap c7a1 c7a2 [], ?_, ?_, by norm_num,
    List.Perm.swap c7r0 c7r1 [], c7cm_eval_orig, c7cm_eval_perm⟩
  · rw [c7a_result]
  · rw [c7b_result]

/-! ## C7 amended: permutation invariance of the confusion matrix under
pairwise-distinct candidate IoUs

The development below characterises `evaluate_detection_batch` cell-wise as
counts, shows that `_drop_extra_matches` is insensitive to the input order
when all candidate IoUs are pairwise distinct (the descending IoU sort has a
unique result, and both `np.unique` passes are then order-independent), and
transports the matching along the index bijection induced by a permutation
of the prediction rows. -/

/-- Cell-wise version of `foldl_bump_total`: each cell of the fold counts
the increments targeted at it. -/
theorem foldl_bump_count {α : Type} (f : α → ℕ × ℕ) (l : List α) (m0 : CMat) (r c : ℕ) :
    (l.foldl (fun acc a => bump acc (f a).1 (f a).2) m0) r c
      = m0 r c + (l.map f).count (r, c) := by
  induction l generalizing m0 with
  | nil => simp
  | cons a t ih =>
    rw [List.foldl_cons, ih, List.map_cons, List.count_cons, bump_apply]
    by_cases h : f a = (r, c)
    · rw [if_pos ⟨by rw [h], by rw [h]⟩, if_pos (by simpa using h)]
      omega
    · rw [if_neg, if_neg (by simpa using h)]
      · omega
      · rintro ⟨h1, h2⟩
        exact h (by rw [h1, h2])

/-- Cell-wise version of `foldl_bumpOpt_total`. -/
theorem foldl_bumpOpt_count {α : Type} (g : α → Option (ℕ × ℕ)) (l : List α)
    (m0 : CMat) (r c : ℕ) :
    (l.foldl (fun acc a =>
        match g a with
        | some rc => bump acc rc.1 rc.2
        | none => acc) m0) r c
      = m0 r c + (l.filterMap g).count (r, c) := by
  induction l generalizing m0 with
  | nil => simp
  | cons a t ih =>
    rcases hga : g a with _ | rc
    · simp only [List.foldl_cons, List.filterMap_cons, hga]
      rw [ih]
    · simp only [List.foldl_cons, List.filterMap_cons, hga]
      rw [ih, List.count_cons, bump_apply]
      by_cases h : rc = (r, c)
      · rw [if_pos ⟨by rw [h], by rw [h]⟩, if_pos (by simpa using h)]
        omega
      · rw [if_neg, if_neg (by simpa using h)]
        · omega
        · rintro ⟨h1, h2⟩
          exact h (by rw [h1, h2])

/-- The confusion matrix cell-wise: TP/FN increments from the target loop
plus FP increments from the detection loop. -/
theorem evaluate_cell (P : List PredRow) (T : List TgtRow) (n : ℕ) (ct it : ℚ) (r c : ℕ) :
    evaluate_detection_batch P T n ct it r c
      = (T.enum.map
          (targetCell (cm_matches P T ct it) (surviving P ct) n)).count (r, c)
        + ((surviving P ct).enum.filterMap
            (predCell (cm_matches P T ct it) n)).count (r, c) := by
  simp only [evaluate_detection_batch]
  rw [foldl_bumpOpt_count, foldl_bump_count]
  omega

/-- In a list of triples with pairwise distinct IoU values, the IoU value
determines the triple. -/
theorem iou_inj_of_pairwise_ne {l : List MatchTriple}
    (h : (l.map (·.iou)).Pairwise (· ≠ ·)) :
    ∀ a ∈ l, ∀ b ∈ l, a.iou = b.iou → a = b := by
  rw [List.pairwise_map] at h
  intro a ha b hb heq
  by_contra hne
  have hsymm : Symmetric (fun a b : MatchTriple => a.iou ≠ b.iou) :=
    fun x y hxy he => hxy he.symm
  exact List.Pairwise.forall hsymm h ha hb hne heq

/-- Two sorted-descending lists that are permutations of each other and have
member-wise injective IoUs are equal. -/
theorem sorted_desc_eq_of_perm :
    ∀ (l : List MatchTriple), ∀ l', List.Perm l l' →
      (∀ a ∈ l, ∀ b ∈ l, a.iou = b.iou → a = b) →
      List.Sorted (fun a b : MatchTriple => b.iou ≤ a.iou) l →
      List.Sorted (fun a b : MatchTriple => b.iou ≤ a.iou) l' → l = l' := by
  intro l
  induction l with
  | nil =>
    intro l' hp _ _ _
    exact (List.nil_perm.mp hp).symm
  | cons a t ih =>
    intro l' hp hanti h1 h2
    rcases l' with _ | ⟨a', t'⟩
    · exact absurd hp (by simp)
    · have haa : a = a' := by
        have ha'mem : a' ∈ a :: t := hp.symm.subset (List.mem_cons_self a' t')
        have hamem : a ∈ a' :: t' := hp.subset (List.mem_cons_self a t)
        rcases List.mem_cons.mp ha'mem with h | h
        · exact h.symm
        · rcases List.mem_cons.mp hamem with h' | h'
          · exact h'
          · have r1 : a'.iou ≤ a.iou := List.rel_of_sorted_cons h1 a' h
            have r2 : a.iou ≤ a'.iou := List.rel_of_sorted_cons h2 a h'
            exact hanti a (List.mem_cons_self a t) a' (List.mem_cons_of_mem a h)
              (le_antisymm r2 r1)
      subst haa
      rw [ih t' hp.cons_inv
        (fun x hx y hy => hanti x (List.mem_cons_of_mem a hx) y (List.mem_cons_of_mem a hy))
        h1.of_cons h2.of_cons]

/-- `sortByIouDesc` really sorts descending by IoU. -/
theorem sortByIouDesc_sorted (ms : List MatchTriple) :
    List.Sorted (fun a b : MatchTriple => b.iou ≤ a.iou) (sortByIouDesc ms) := by
  letI : IsTotal MatchTriple (fun a b : MatchTriple => a.iou ≤ b.iou) :=
    ⟨fun a b => le_total a.iou b.iou⟩
  letI : IsTrans MatchTriple (fun a b : MatchTriple => a.iou ≤ b.iou) :=
    ⟨fun _ _ _ hab hbc => le_trans hab hbc⟩
  unfold sortByIouDesc
  rw [List.Sorted, List.pairwise_reverse]
  exact List.sorted_insertionSort _ ms

/-- With pairwise distinct IoUs the descending sort has a unique result:
it is invariant under permuting the input. -/
theorem sortByIouDesc_eq_of_perm {l l' : List MatchTriple} (hp : List.Perm l l')
    (hne : (l.map (·.iou)).Pairwise (· ≠ ·)) :
    sortByIouDesc l = sortByIouDesc l' := by
  have hanti := iou_inj_of_pairwise_ne hne
  refine sorted_desc_eq_of_perm _ _
    ((sortByIouDesc_perm l).trans (hp.trans (sortByIouDesc_perm l').symm))
    (fun a ha b hb => hanti a ((sortByIouDesc_perm l).subset ha)
      b ((sortByIouDesc_perm l).subset hb))
    (sortByIouDesc_sorted l) (sortByIouDesc_sorted l')

/-- Pairwise-distinct IoUs transport along permutations. -/
theorem pairwise_ne_iou_perm {l l' : List MatchTriple} (hp : List.Perm l l')
    (h : (l.map (·.iou)).Pairwise (· ≠ ·)) : (l'.map (·.iou)).Pairwise (· ≠ ·) :=
  ((hp.map (·.iou)).pairwise_iff (fun hxy he => hxy he.symm)).mp h

/-- Pairwise-distinct IoUs restrict to duplicate-free member-wise subsets. -/
theorem pairwise_ne_iou_sub {l big : List MatchTriple} (hnd : l.Nodup)
    (hsub : ∀ m ∈ l, m ∈ big) (hbig : (big.map (·.iou)).Pairwise (· ≠ ·)) :
    (l.map (·.iou)).Pairwise (· ≠ ·) := by
  rw [List.pairwise_map]
  refine hnd.imp_of_mem ?_
  intro a b ha hb hab heq
  exact hab (iou_inj_of_pairwise_ne hbig a (hsub a ha) b (hsub b hb) heq)

/-- Membership in the `np.unique`-selection: exactly the first row of `ms`
carrying its key value. -/
theorem mem_uniqueByKey (key : MatchTriple → ℕ) (ms : List MatchTriple) (m : MatchTriple) :
    m ∈ uniqueByKey key ms ↔ ms.find? (fun x => key x == key m) = some m := by
  unfold uniqueByKey
  rw [List.mem_filterMap]
  constructor
  · rintro ⟨k, _, hfind⟩
    have hkey : key m = k := by simpa using List.find?_some hfind
    subst hkey
    exact hfind
  · intro hfind
    refine ⟨key m, ?_, hfind⟩
    have hmem : m ∈ ms := List.mem_of_find?_eq_some hfind
    exact ((List.perm_insertionSort _ _).mem_iff).mpr
      (List.mem_dedup.mpr (List.mem_map_of_mem _ hmem))

/-- The `np.unique`-selection has no duplicate rows. -/
theorem uniqueByKey_nodup (key : MatchTriple → ℕ) (ms : List MatchTriple) :
    (uniqueByKey key ms).Nodup :=
  (uniqueByKey_map_key_nodup key ms).of_map

/-- Relabelling the prediction indices of a match list. -/
def relabelPrd (σ : ℕ → ℕ) (m : MatchTriple) : MatchTriple :=
  ⟨m.tgt, σ m.prd, m.iou⟩

theorem relabelPrd_injective {σ : ℕ → ℕ} (hσ : Function.Injective σ) :
    Function.Injective (relabelPrd σ) := by
  rintro ⟨t1, p1, i1⟩ ⟨t2, p2, i2⟩ h
  simp only [relabelPrd, MatchTriple.mk.injEq] at h ⊢
  exact ⟨h.1, hσ h.2.1, h.2.2⟩

theorem beq_comp_inj {κ : ℕ → ℕ} (hκ : Function.Injective κ) (a b : ℕ) :
    (κ a == κ b) = (a == b) := by
  rw [Bool.eq_iff_iff]
  simp only [beq_iff_eq]
  exact ⟨fun he => hκ he, fun he => congrArg κ he⟩

/-- `np.unique`-selection commutes (up to reordering of the selected rows)
with any row relabelling that acts injectively on the key column. -/
theorem uniqueByKey_map_perm (key : MatchTriple → ℕ) (κ : ℕ → ℕ)
    (f : MatchTriple → MatchTriple) (hκ : Function.Injective κ)
    (hf : Function.Injective f) (hkey : ∀ m, key (f m) = κ (key m))
    (ms : List MatchTriple) :
    List.Perm (uniqueByKey key (ms.map f)) ((uniqueByKey key ms).map f) := by
  apply List.perm_of_nodup_nodup_toFinset_eq (uniqueByKey_nodup _ _)
    ((uniqueByKey_nodup _ _).map hf)
  apply Finset.ext
  intro m'
  simp only [List.mem_toFinset, List.mem_map]
  rw [mem_uniqueByKey, List.find?_map]
  constructor
  · intro h
    rcases hfind : ms.find? ((fun x => key x == key m') ∘ f) with _ | m
    · rw [hfind] at h
      cases h
    · rw [hfind] at h
      have hm' : f m = m' := by simpa using h
      refine ⟨m, ?_, hm'⟩
      rw [mem_uniqueByKey]
      have hpred : ((fun x => key x == key m') ∘ f) = (fun x => key x == key m) := by
        funext x
        show (key (f x) == key m') = (key x == key m)
        rw [← hm', hkey x, hkey m, beq_comp_inj hκ]
      rwa [hpred] at hfind
  · rintro ⟨m, hm, rfl⟩
    rw [mem_uniqueByKey] at hm
    have hpred : ((fun x => key x == key (f m)) ∘ f) = (fun x => key x == key m) := by
      funext x
      show (key (f x) == key (f m)) = (key x == key m)
      rw [hkey x, hkey m, beq_comp_inj hκ]
    rw [hpred, hm]
    rfl

/-- The descending sort commutes with prediction-index relabelling. -/
theorem sortByIouDesc_map (σ : ℕ → ℕ) {l : List MatchTriple}
    (hne : (l.map (·.iou)).Pairwise (· ≠ ·)) :
    sortByIouDesc (l.map (relabelPrd σ)) = (sortByIouDesc l).map (relabelPrd σ) := by
  have hiou : (l.map (relabelPrd σ)).map (·.iou) = l.map (·.iou) := by
    rw [List.map_map]
    rfl
  refine sorted_desc_eq_of_perm _ _
    ((sortByIouDesc_perm _).trans (((sortByIouDesc_perm l).symm).map _))
    (fun a ha b hb => iou_inj_of_pairwise_ne (hiou ▸ hne)
      a ((sortByIouDesc_perm _).subset ha) b ((sortByIouDesc_perm _).subset hb))
    (sortByIouDesc_sorted _) ?_
  rw [List.Sorted, List.pairwise_map]
  exact sortByIouDesc_sorted l

/-- `_drop_extra_matches` is order-independent when all candidate IoUs are
pairwise distinct. -/
theorem drop_extra_eq_of_perm {l l' : List MatchTriple} (hp : List.Perm l l')
    (hne : (l.map (·.iou)).Pairwise (· ≠ ·)) :
    drop_extra_matches l = drop_extra_matches l' := by
  unfold drop_extra_matches
  by_cases h : l = []
  · subst h
    rw [List.nil_perm.mp hp]
  · have h' : l' ≠ [] := fun he => h (by simpa [he] using hp)
    rw [if_neg h, if_neg h', sortByIouDesc_eq_of_perm hp hne]

/-- `_drop_extra_matches` commutes (up to reordering) with injective
prediction-index relabelling, given pairwise distinct IoUs. -/
theorem drop_extra_map_perm (σ : ℕ → ℕ) {l : List MatchTriple}
    (hσ : Function.Injective σ)
    (hne : (l.map (·.iou)).Pairwise (· ≠ ·)) :
    List.Perm (drop_extra_matches (l.map (relabelPrd σ)))
      ((drop_extra_matches l).map (relabelPrd σ)) := by
  have hinjf : Function.Injective (relabelPrd σ) := relabelPrd_injective hσ
  by_cases h : l = []
  · subst h
    simp [drop_extra_matches]
  · have hmap : l.map (relabelPrd σ) ≠ [] := by simpa using h
    rw [drop_extra_matches, if_neg hmap, drop_extra_matches, if_neg h,
      sortByIouDesc_map σ hne]
    have hs1ne : ((sortByIouDesc l).map (·.iou)).Pairwise (· ≠ ·) :=
      pairwise_ne_iou_perm (sortByIouDesc_perm l).symm hne
    have hu1 : List.Perm
        (uniqueByKey (·.prd) ((sortByIouDesc l).map (relabelPrd σ)))
        ((uniqueByKey (·.prd) (sortByIouDesc l)).map (relabelPrd σ)) :=
      uniqueByKey_map_perm _ σ _ hσ hinjf (fun _ => rfl) _
    have hu1ne : ((uniqueByKey (·.prd) (sortByIouDesc l)).map (·.iou)).Pairwise (· ≠ ·) :=
      pairwise_ne_iou_sub (uniqueByKey_nodup _ _)
        (fun m hm => uniqueByKey_subset _ _ m hm) hs1ne
    have hmapne :
        (((uniqueByKey (·.prd) (sortByIouDesc l)).map (relabelPrd σ)).map (·.iou)).Pairwise
          (· ≠ ·) := by
      rw [List.map_map]
      exact hu1ne
    have hs2 : sortByIouDesc (uniqueByKey (·.prd) ((sortByIouDesc l).map (relabelPrd σ)))
        = (sortByIouDesc (uniqueByKey (·.prd) (sortByIouDesc l))).map (relabelPrd σ) := by
      rw [sortByIouDesc_eq_of_perm hu1 (pairwise_ne_iou_perm hu1.symm hmapne),
        sortByIouDesc_map σ hu1ne]
    rw [hs2]
    exact uniqueByKey_map_perm _ id _ (fun _ _ hab => hab) hinjf (fun _ => rfl) _

/-- The stacked candidate list has no duplicate rows: each `(target,
prediction)` index pair occurs at most once. -/
theorem cm_candidates_nodup (iou : ℕ → ℕ → ℚ) (nT nP : ℕ) (thr : ℚ) :
    (cm_candidates iou nT nP thr).Nodup := by
  unfold cm_candidates
  rw [List.nodup_flatMap]
  constructor
  · intro i _
    refine List.Nodup.filterMap ?_ (List.nodup_range nP)
    intro a a' b hb hb'
    have h1 : b.prd = a := by
      simp only [Option.mem_def] at hb
      split at hb
      · rw [Option.some.injEq] at hb
        rw [← hb]
      · cases hb
    have h2 : b.prd = a' := by
      simp only [Option.mem_def] at hb'
      split at hb'
      · rw [Option.some.injEq] at hb'
        rw [← hb']
      · cases hb'
    rw [← h1, ← h2]
  · refine List.Pairwise.imp_of_mem ?_ (List.nodup_range nT)
    intro i i' _ _ hne m hm hm'
    rcases List.mem_filterMap.mp hm with ⟨j, _, hj⟩
    rcases List.mem_filterMap.mp hm' with ⟨j', _, hj'⟩
    have e1 : m.tgt = i := by
      split at hj
      · rw [Option.some.injEq] at hj
        rw [← hj]
      · cases hj
    have e2 : m.tgt = i' := by
      split at hj'
      · rw [Option.some.injEq] at hj'
        rw [← hj']
      · cases hj'
    exact hne (e1.symm.trans e2)

/-- A permutation of two lists induces an index translation that is
injective and surjective on the index range and preserves the values. -/
theorem perm_index_fun {α : Type} {l l' : List α} (h : List.Perm l l') :
    ∃ σ : ℕ → ℕ,
      (∀ k, k < l.length → σ k < l.length) ∧
      (∀ k j, k < l.length → j < l.length → σ k = σ j → k = j) ∧
      (∀ j, j < l.length → ∃ k, k < l.length ∧ σ k = j) ∧
      (∀ k, k < l.length → ∀ d : α, l'.getD (σ k) d = l.getD k d) := by
  induction h with
  | nil =>
    exact ⟨id, fun k hk => hk, fun k j _ _ hkj => hkj, fun j hj => ⟨j, hj, rfl⟩,
      fun k hk => absurd hk (by simp)⟩
  | cons x h ih =>
    obtain ⟨σ, hb, hinj, hsurj, hval⟩ := ih
    refine ⟨fun k => match k with | 0 => 0 | k + 1 => σ k + 1, ?_, ?_, ?_, ?_⟩
    · intro k hk
      match k with
      | 0 => exact Nat.succ_pos _
      | k + 1 =>
        rw [List.length_cons] at hk ⊢
        exact Nat.succ_lt_succ (hb k (Nat.lt_of_succ_lt_succ hk))
    · intro k j hk hj he
      match k, j with
      | 0, 0 => rfl
      | 0, j + 1 =>
        have he' : 0 = σ j + 1 := he
        exact absurd he'.symm (Nat.succ_ne_zero _)
      | k + 1, 0 =>
        have he' : σ k + 1 = 0 := he
        exact absurd he' (Nat.succ_ne_zero _)
      | k + 1, j + 1 =>
        rw [List.length_cons] at hk hj
        have he' : σ k + 1 = σ j + 1 := he
        have := hinj k j (Nat.lt_of_succ_lt_succ hk) (Nat.lt_of_succ_lt_succ hj)
          (Nat.succ_injective he')
        rw [this]
    · intro j hj
      match j with
      | 0 => exact ⟨0, Nat.succ_pos _, rfl⟩
      | j + 1 =>
        rw [List.length_cons] at hj
        obtain ⟨k, hk, hkj⟩ := hsurj j (Nat.lt_of_succ_lt_succ hj)
        refine ⟨k + 1, ?_, ?_⟩
        · rw [List.length_cons]
          exact Nat.succ_lt_succ hk
        · show σ k + 1 = j + 1
          rw [hkj]
    · intro k hk d
      match k with
      | 0 => rfl
      | k + 1 =>
        rw [List.length_cons] at hk
        show (x :: _).getD (σ k + 1) d = _
        rw [List.getD_cons_succ, List.getD_cons_succ]
        exact hval k (Nat.lt_of_succ_lt_succ hk) d
  | swap x y t =>
    refine ⟨fun k => match k with | 0 => 1 | 1 => 0 | k + 2 => k + 2, ?_, ?_, ?_, ?_⟩
    · intro k hk
      simp only [List.length_cons] at hk ⊢
      match k with
      | 0 =>
        show 1 < t.length + 1 + 1
        omega
      | 1 =>
        show 0 < t.length + 1 + 1
        omega
      | k + 2 =>
        show k + 2 < t.length + 1 + 1
        omega
    · intro k j hk hj he
      match k, j with
      | 0, 0 => rfl
      | 0, 1 =>
        have he' : (1 : ℕ) = 0 := he
        omega
      | 0, j + 2 =>
        have he' : 1 = j + 2 := he
        omega
      | 1, 0 =>
        have he' : (0 : ℕ) = 1 := he
        omega
      | 1, 1 => rfl
      | 1, j + 2 =>
        have he' : 0 = j + 2 := he
        omega
      | k + 2, 0 =>
        have he' : k + 2 = 1 := he
        omega
      | k + 2, 1 =>
        have he' : k + 2 = 0 := he
        omega
      | k + 2, j + 2 =>
        have he' : k + 2 = j + 2 := he
        omega
    · intro j hj
      simp only [List.length_cons] at hj
      match j with
      | 0 =>
        refine ⟨1, ?_, rfl⟩
        simp only [List.length_cons]
        omega
      | 1 =>
        refine ⟨0, ?_, rfl⟩
        simp only [List.length_cons]
        omega
      | j + 2 =>
        refine ⟨j + 2, ?_, rfl⟩
        simp only [List.length_cons]
        omega
    · intro k hk d
      match k with
      | 0 => rfl
      | 1 => rfl
      | k + 2 => rfl
  | trans h₁ h₂ ih₁ ih₂ =>
    obtain ⟨σ₁, hb₁, hinj₁, hsurj₁, hval₁⟩ := ih₁
    obtain ⟨σ₂, hb₂, hinj₂, hsurj₂, hval₂⟩ := ih₂
    have hlen := h₁.length_eq
    refine ⟨fun k => σ₂ (σ₁ k), ?_, ?_, ?_, ?_⟩
    · intro k hk
      have h1 := hb₁ k hk
      have h2 := hb₂ (σ₁ k) (by rw [← hlen]; exact h1)
      rwa [← hlen] at h2
    · intro k j hk hj he
      apply hinj₁ k j hk hj
      exact hinj₂ _ _ (by rw [← hlen]; exact hb₁ k hk)
        (by rw [← hlen]; exact hb₁ j hj) he
    · intro j hj
      obtain ⟨m, hm, hmj⟩ := hsurj₂ j (by rw [← hlen]; exact hj)
      obtain ⟨k, hk, hkm⟩ := hsurj₁ m (by rw [hlen]; exact hm)
      refine ⟨k, hk, ?_⟩
      show σ₂ (σ₁ k) = j
      rw [hkm, hmj]
    · intro k hk d
      exact (hval₂ (σ₁ k) (by rw [← hlen]; exact hb₁ k hk) d).trans (hval₁ k hk d)

/-- The index translation of `perm_index_fun`, extended by the identity
outside the index range so that it is globally injective. -/
theorem perm_index_bij {α : Type} {l l' : List α} (h : List.Perm l l') :
    ∃ σ : ℕ → ℕ, Function.Injective σ ∧
      (∀ k, k < l.length → σ k < l.length) ∧
      (∀ j, j < l.length → ∃ k, k < l.length ∧ σ k = j) ∧
      (∀ k, k < l.length → ∀ d : α, l'.getD (σ k) d = l.getD k d) := by
  obtain ⟨σ₀, hb, hinj, hsurj, hval⟩ := perm_index_fun h
  refine ⟨fun k => if k < l.length then σ₀ k else k, ?_, ?_, ?_, ?_⟩
  · intro a b hab
    have hab' : (if a < l.length then σ₀ a else a) = (if b < l.length then σ₀ b else b) := hab
    by_cases ha : a < l.length <;> by_cases hb2 : b < l.length
    · rw [if_pos ha, if_pos hb2] at hab'
      exact hinj a b ha hb2 hab'
    · rw [if_pos ha, if_neg hb2] at hab'
      exact absurd (hab' ▸ hb a ha) hb2
    · rw [if_neg ha, if_pos hb2] at hab'
      exact absurd (hab' ▸ hb b hb2) ha
    · rw [if_neg ha, if_neg hb2] at hab'
      exact hab'
  · intro k hk
    show (if k < l.length then σ₀ k else k) < l.length
    rw [if_pos hk]
    exact hb k hk
  · intro j hj
    obtain ⟨k, hk, hkj⟩ := hsurj j hj
    refine ⟨k, hk, ?_⟩
    show (if k < l.length then σ₀ k else k) = j
    rw [if_pos hk]
    exact hkj
  · intro k hk d
    show l'.getD (if k < l.length then σ₀ k else k) d = l.getD k d
    rw [if_pos hk]
    exact hval k hk d

/-- Permuting the detection rows turns the candidate list into (a
reordering of) the prediction-index-relabelled candidate list. -/
theorem cm_candidates_map_perm (T : List TgtRow) (D D' : List PredRow) (σ : ℕ → ℕ)
    (hσ : Function.Injective σ) (hlen : D'.length = D.length)
    (hbσ : ∀ k, k < D.length → σ k < D.length)
    (hsσ : ∀ j, j < D.length → ∃ k, k < D.length ∧ σ k = j)
    (hvalσ : ∀ k, k < D.length → D'.getD (σ k) default = D.getD k default) (thr : ℚ) :
    List.Perm (cm_candidates (iouOf T D') T.length D'.length thr)
      ((cm_candidates (iouOf T D) T.length D.length thr).map (relabelPrd σ)) := by
  have hrel : Function.Injective (relabelPrd σ) := relabelPrd_injective hσ
  apply List.perm_of_nodup_nodup_toFinset_eq (cm_candidates_nodup _ _ _ _)
    ((cm_candidates_nodup _ _ _ _).map hrel)
  apply Finset.ext
  intro m'
  simp only [List.mem_toFinset, List.mem_map]
  rw [mem_cm_candidates]
  constructor
  · rintro ⟨hiT, hiP, hthr, hiou⟩
    rw [hlen] at hiP
    obtain ⟨k, hk, hks⟩ := hsσ m'.prd hiP
    have hio : iouOf T D m'.tgt k = iouOf T D' m'.tgt m'.prd := by
      rw [← hks]
      unfold iouOf
      rw [hvalσ k hk]
    refine ⟨⟨m'.tgt, k, m'.iou⟩, ?_, ?_⟩
    · rw [mem_cm_candidates]
      exact ⟨hiT, hk, by rw [hio]; exact hthr, by rw [hio]; exact hiou⟩
    · show (⟨m'.tgt, σ k, m'.iou⟩ : MatchTriple) = m'
      rw [hks]
  · rintro ⟨m, hm, rfl⟩
    rw [mem_cm_candidates] at hm
    obtain ⟨hiT, hk, hthr, hiou⟩ := hm
    have hio : iouOf T D' m.tgt (σ m.prd) = iouOf T D m.tgt m.prd := by
      unfold iouOf
      rw [hvalσ m.prd hk]
    refine ⟨hiT, ?_, ?_, ?_⟩
    · show σ m.prd < D'.length
      rw [hlen]
      exact hbσ m.prd hk
    · show thr < iouOf T D' m.tgt (σ m.prd)
      rw [hio]
      exact hthr
    · show m.iou = iouOf T D' m.tgt (σ m.prd)
      rw [hio]
      exact hiou

/-- `List.any` only depends on the members. -/
theorem perm_any {α : Type} {l l' : List α} (h : List.Perm l l') (p : α → Bool) :
    l.any p = l'.any p := by
  rw [Bool.eq_iff_iff, List.any_eq_true, List.any_eq_true]
  constructor <;> rintro ⟨x, hx, hpx⟩
  exacts [⟨x, h.subset hx, hpx⟩, ⟨x, h.symm.subset hx, hpx⟩]

/-- The per-target increment is unchanged when the matches are relabelled
along the permutation and the detections permuted accordingly. -/
theorem targetCell_relabel (mts mts' : List MatchTriple) (D D' : List PredRow)
    (σ : ℕ → ℕ) (n : ℕ) (it : ℕ × TgtRow)
    (hperm : List.Perm mts' (mts.map (relabelPrd σ)))
    (hbnd : ∀ m ∈ mts, m.prd < D.length)
    (hvalσ : ∀ k, k < D.length → D'.getD (σ k) default = D.getD k default) :
    targetCell mts' D' n it = targetCell mts D n it := by
  unfold targetCell
  have hfp : List.Perm (mts'.filter (fun m => m.tgt == it.1))
      ((mts.filter (fun m => m.tgt == it.1)).map (relabelPrd σ)) := by
    have h := hperm.filter (fun m => m.tgt == it.1)
    rwa [List.filter_map, show ((fun m : MatchTriple => m.tgt == it.1) ∘ relabelPrd σ)
      = (fun m : MatchTriple => m.tgt == it.1) from rfl] at h
  rcases hft : mts.filter (fun m => m.tgt == it.1) with _ | ⟨m, tl⟩
  · rw [hft] at hfp
    simp only [List.map_nil] at hfp
    rw [hft, List.perm_nil.mp hfp]
  · rcases tl with _ | ⟨m2, tl2⟩
    · rw [hft] at hfp
      simp only [List.map_cons, List.map_nil] at hfp
      rw [hft, List.perm_singleton.mp hfp]
      have hm : m ∈ mts := List.mem_of_mem_filter (hft ▸ List.mem_cons_self m [])
      show (it.2.cls, (D'.getD (σ m.prd) default).cls) = (it.2.cls, (D.getD m.prd default).cls)
      rw [hvalσ m.prd (hbnd m hm)]
    · have hlen := hfp.length_eq
      rw [hft] at hlen
      simp only [List.length_map, List.length_cons] at hlen
      rcases hq : mts'.filter (fun m => m.tgt == it.1) with _ | ⟨a, _ | ⟨b, tl'⟩⟩
      · rw [hq] at hlen
        simp at hlen
      · rw [hq] at hlen
        simp at hlen
      · rw [hft, hq]

/-- The index list of an enumeration, as a mapped range. -/
theorem enum_eq_range_map {α : Type} [Inhabited α] (l : List α) :
    l.enum = (List.range l.length).map (fun j => (j, l.getD j default)) := by
  apply List.ext_getElem
  · rw [List.enum_length, List.length_map, List.length_range]
  · intro i h1 h2
    rw [List.enum_length] at h1
    rw [List.getElem_enum, List.getElem_map, List.getElem_range,
      List.getD_eq_getElem l default h1]

theorem countP_range_eq_card (n : ℕ) (p : ℕ → Bool) :
    (List.range n).countP p = ((Finset.range n).filter (fun j => p j = true)).card := by
  induction n with
  | zero => rfl
  | succ n ih =>
    rw [List.range_succ, List.countP_append, Finset.range_succ, Finset.filter_insert]
    by_cases h : p n = true
    · rw [if_pos h, Finset.card_insert_of_not_mem (by simp)]
      simp [h, ih]
    · rw [if_neg h]
      simp [h, ih]

/-- Transport of a `range` count along a bijection of the index range. -/
theorem countP_range_bij (n : ℕ) (σ : ℕ → ℕ) (p p' : ℕ → Bool)
    (hb : ∀ k, k < n → σ k < n)
    (hinj : ∀ k j, k < n → j < n → σ k = σ j → k = j)
    (hsurj : ∀ j, j < n → ∃ k, k < n ∧ σ k = j)
    (hval : ∀ k, k < n → p' (σ k) = p k) :
    (List.range n).countP p' = (List.range n).countP p := by
  rw [countP_range_eq_card, countP_range_eq_card]
  symm
  apply Finset.card_bij (fun k _ => σ k)
  · intro k hk
    rw [Finset.mem_filter, Finset.mem_range] at hk ⊢
    exact ⟨hb k hk.1, by rw [hval k hk.1]; exact hk.2⟩
  · intro a ha b hb2 he
    rw [Finset.mem_filter, Finset.mem_range] at ha hb2
    exact hinj a b ha.1 hb2.1 he
  · intro j hj
    rw [Finset.mem_filter, Finset.mem_range] at hj
    obtain ⟨k, hk, rfl⟩ := hsurj j hj.1
    refine ⟨k, ?_, rfl⟩
    rw [Finset.mem_filter, Finset.mem_range]
    exact ⟨hk, by rw [← hval k hk]; exact hj.2⟩

/-- The false-positive increments are cell-wise unchanged under the index
bijection. -/
theorem predCell_count_eq (mts mts' : List MatchTriple) (D D' : List PredRow)
    (σ : ℕ → ℕ) (n r c : ℕ) (hσ : Function.Injective σ)
    (hperm : List.Perm mts' (mts.map (relabelPrd σ)))
    (hlen : D'.length = D.length)
    (hbσ : ∀ k, k < D.length → σ k < D.length)
    (hsσ : ∀ j, j < D.length → ∃ k, k < D.length ∧ σ k = j)
    (hvalσ : ∀ k, k < D.length → D'.getD (σ k) default = D.getD k default) :
    (D'.enum.filterMap (predCell mts' n)).count (r, c)
      = (D.enum.filterMap (predCell mts n)).count (r, c) := by
  have hany : ∀ k, mts'.any (fun m => m.prd == σ k) = mts.any (fun m => m.prd == k) := by
    intro k
    rw [perm_any hperm, any_map_general]
    show (mts.any fun a => σ a.prd == σ k) = _
    simp only [beq_comp_inj hσ]
  rw [List.count_filterMap, List.count_filterMap, enum_eq_range_map D',
    enum_eq_range_map D, List.countP_map, List.countP_map, hlen]
  apply countP_range_bij D.length σ _ _ hbσ (fun k j _ _ he => hσ he) hsσ
  intro k hk
  show (predCell mts' n (σ k, D'.getD (σ k) default) == some (r, c))
      = (predCell mts n (k, D.getD k default) == some (r, c))
  rw [hvalσ k hk]
  simp only [predCell]
  rw [hany k]

/-- **C7, amended.**  Order-independence is recovered for the
confusion-matrix path under the proviso that all candidate IoU values are
pairwise distinct: permuting the prediction rows of an image then leaves
every cell of the confusion matrix produced by `evaluate_detection_batch`
unchanged.  (The counterexample shows the proviso is needed — an IoU tie
breaks it — and that no analogous statement holds for the AP statistics,
whose dedup is order-dependent even with distinct IoUs and confidences.) -/
theorem C7_confusion_perm_invariant (P P' : List PredRow) (T : List TgtRow)
    (n : ℕ) (ct it : ℚ) (r c : ℕ) (hperm : List.Perm P' P)
    (hne : ((cm_candidates (iouOf T (surviving P ct)) T.length
        (surviving P ct).length it).map (·.iou)).Pairwise (· ≠ ·)) :
    evaluate_detection_batch P' T n ct it r c
      = evaluate_detection_batch P T n ct it r c := by
  have hD : List.Perm (surviving P ct) (surviving P' ct) := (hperm.filter _).symm
  obtain ⟨σ, hσ, hb, hs, hval⟩ := perm_index_bij hD
  have hval' : ∀ k, k < (surviving P ct).length →
      (surviving P' ct).getD (σ k) default = (surviving P ct).getD k default :=
    fun k hk => hval k hk default
  have hlen : (surviving P' ct).length = (surviving P ct).length := hD.length_eq.symm
  have hcands : List.Perm
      (cm_candidates (iouOf T (surviving P' ct)) T.length (surviving P' ct).length it)
      ((cm_candidates (iouOf T (surviving P ct)) T.length (surviving P ct).length it).map
        (relabelPrd σ)) :=
    cm_candidates_map_perm T (surviving P ct) (surviving P' ct) σ hσ hlen hb hs hval' it
  have hnemap : (((cm_candidates (iouOf T (surviving P ct)) T.length
      (surviving P ct).length it).map (relabelPrd σ)).map (·.iou)).Pairwise (· ≠ ·) := by
    rw [List.map_map]
    exact hne
  have hne' := pairwise_ne_iou_perm hcands.symm hnemap
  have hmts : List.Perm (cm_matches P' T ct it)
      ((cm_matches P T ct it).map (relabelPrd σ)) := by
    unfold cm_matches
    rw [drop_extra_eq_of_perm hcands hne']
    exact drop_extra_map_perm σ hσ hne
  have hbnd : ∀ m ∈ cm_matches P T ct it, m.prd < (surviving P ct).length :=
    fun m hm => (mem_cm_matches P T ct it m hm).2
  rw [evaluate_cell, evaluate_cell]
  congr 1
  · congr 1
    apply List.map_congr_left
    intro it' _
    exact targetCell_relabel _ _ _ _ σ n it' hmts hbnd hval'
  · exact predCell_count_eq _ _ _ _ σ n r c hσ hmts hlen hb hs hval'

theorem c7w_surv : surviving [c7a1, c7a2] (1 / 4) = [c7a1, c7a2] := by
  norm_num [surviving, List.filter, c7a1, c7a2]

theorem c7w_cands :
    cm_candidates (iouOf [c7t] [c7a1, c7a2]) 1 2 (1 / 2)
      = [⟨0, 0, 3 / 5⟩, ⟨0, 1, 9 / 10⟩] := by
  rw [cm_candidates, show List.range 1 = [0] from rfl, show List.range 2 = [0, 1] from rfl]
  simp only [List.flatMap_cons, List.flatMap_nil, List.filterMap_cons, List.filterMap_nil,
    List.append_nil]
  rw [show iouOf [c7t] [c7a1, c7a2] 0 0 = 3 / 5 from c7a_iou0,
    show iouOf [c7t] [c7a1, c7a2] 0 1 = 9 / 10 from c7a_iou1]
  norm_num

theorem c7w_hne :
    ((cm_candidates (iouOf [c7t] (surviving [c7a1, c7a2] (1 / 4)))
        ([c7t] : List TgtRow).length
        (surviving [c7a1, c7a2] (1 / 4)).length (1 / 2)).map (·.iou)).Pairwise (· ≠ ·) := by
  rw [c7w_surv, show ([c7t] : List TgtRow).length = 1 from rfl,
    show ([c7a1, c7a2] : List PredRow).length = 2 from rfl, c7w_cands]
  norm_num [List.pairwise_cons]

/-- Witness for the amended C7: two predictions with distinct IoUs (0.6 and
0.9); swapping them leaves the confusion-matrix cell unchanged. -/
theorem C7_confusion_perm_invariant_witness :
    List.Perm [c7a2, c7a1] [c7a1, c7a2] ∧
      ((cm_candidates (iouOf [c7t] (surviving [c7a1, c7a2] (1 / 4)))
          ([c7t] : List TgtRow).length
          (surviving [c7a1, c7a2] (1 / 4)).length (1 / 2)).map (·.iou)).Pairwise (· ≠ ·) ∧
      evaluate_detection_batch [c7a2, c7a1] [c7t] 2 (1 / 4) (1 / 2) 0 0
        = evaluate_detection_batch [c7a1, c7a2] [c7t] 2 (1 / 4) (1 / 2) 0 0 :=
  ⟨List.Perm.swap c7a1 c7a2 [], c7w_hne,
    C7_confusion_perm_invariant [c7a1, c7a2] [c7a2, c7a1] [c7t] 2 (1 / 4) (1 / 2) 0 0
      (List.Perm.swap c7a1 c7a2 []) c7w_hne⟩

theorem C1_per_class_ap_shape_witness :
    (stacked_stats c1P c1T ≠ [] ∧
      (all_correct c1P c1T).any (fun r => r.any id) = true) ∧
    (from_tensors_map c1P c1T).per_class_ap
      = (average_precisions_per_class 10 (all_rows c1P c1T)
          (all_tcls c1P c1T)).map listMean :=
  ⟨c1_hbr, (C1_per_class_ap_shape c1P c1T c1_hbr).1⟩

end SupervisionSpec
